import Mathlib

/-!
Verification development for the reviewer-allocation repository.

Python sets of strings are modelled as duplicate-free lists ("list-sets"):
insertion keeps first occurrence order, so the length of a list-set equals
the cardinality of the set it models.  The randomness of random.shuffle
(together with the arbitrary iteration order of a Python set that is turned
into a list) is modelled by an explicit permutation oracle: a function that,
at each call site, returns some permutation of the candidate pool.  Theorems
that hold for every outcome of the randomness quantify over all oracles that
produce permutations; concrete executions instantiate the oracle.

Python stable list.sort(key=...) is modelled by a structurally recursive
stable insertion sort over a boolean comparator.
-/

namespace Alloc

/-- Set insertion on list-sets: adding an element already present is a no-op,
a new element is appended (Python set.add). -/
def sinsert {α : Type} [DecidableEq α] (x : α) (l : List α) : List α :=
  if x ∈ l then l else l ++ [x]

/-- Set update on list-sets (Python set.update): fold of sinsert. -/
def sunion {α : Type} [DecidableEq α] (l : List α) (xs : List α) : List α :=
  xs.foldl (fun acc x => sinsert x acc) l

/-- Stable insertion of one element with respect to a boolean comparator:
the element is placed before the first list entry it compares le to, so
equal keys keep their original relative order (Python sort stability). -/
def insSorted {α : Type} (le : α → α → Bool) (x : α) : List α → List α
  | [] => [x]
  | y :: ys => if le x y then x :: y :: ys else y :: insSorted le x ys

/-- Stable insertion sort with a boolean comparator, modelling Python
list.sort(key=...): ascending in le, stable on ties. -/
def isort {α : Type} (le : α → α → Bool) : List α → List α
  | [] => []
  | x :: xs => insSorted le x (isort le xs)

/-- Mirror of the Developer dataclass of data_types.py.  Set-valued fields
are list-sets; reviewer_indexes is kept for completeness. -/
structure Developer where
  name : String
  reviewer_number : Nat
  preferable_reviewer_names : List String := []
  reviewer_names : List String := []
  reviewer_indexes : List String := []
  review_for : List String := []
  order : Int := 0
deriving DecidableEq, Repr

/-- Python next(dev for dev in devs if dev.name == name): the first developer
of the roster with the given name, none when the generator is exhausted
(which in the source raises StopIteration). -/
def lookupDev (devs : List Developer) (nm : String) : Option Developer :=
  devs.find? (fun d => d.name == nm)

/-- Review load of a name, the sort key of the selector: size of the
review_for set of the first matching developer (0 is never used: the guard
in the selector ensures the lookup succeeded). -/
def loadOf (devs : List Developer) (nm : String) : Nat :=
  ((lookupDev devs nm).map (fun d => d.review_for.length)).getD 0

/-- Mirror of shuffle_and_get_the_most_available_names of
allocate_reviewers.py (identical in scripts/rotate_devs_reviewers.py).
The argument shuffled is the list of the candidate set after list() and
random.shuffle, supplied by the permutation oracle at the call site.
Returns none when the sort key raises StopIteration, that is when some
candidate name has no developer in the roster. -/
def shuffle_and_get_the_most_available_names
    (shuffled : List String) (number_of_names : Nat) (devs : List Developer) :
    Option (List String) :=
  if number_of_names = 0 then some []
  else if shuffled.length = 0 then some shuffled
  else if shuffled.all (fun nm => (lookupDev devs nm).isSome) then
    some ((isort (fun a b => loadOf devs a ≤ loadOf devs b) shuffled).take number_of_names)
  else none

/-- Oracle for one random.shuffle of a listed set: given a call counter and
the candidate pool (as a list-set), produce the shuffled list. -/
abbrev ShuffleOracle := Nat → List String → List String

/-- An oracle is admissible when every answer is a permutation of the pool:
exactly the executions the Python pair list() plus random.shuffle can
produce. -/
def Admissible (sh : ShuffleOracle) : Prop :=
  ∀ k l, (sh k l).Perm l

/-- One selection phase of allocate_reviewers (allocate_reviewers.py):
filter the configured pool by "name not in [dev.name, *chosen]", call the
selector for the requested count, and update the chosen set. -/
def phaseStep (sh : ShuffleOracle) (devs : List Developer) (nm : String)
    (pool : List String) (cnt : Nat) (chosen : List String) (k : Nat) :
    Option (List String × Nat) :=
  let selectable := pool.filter (fun x => ¬ (x = nm ∨ x ∈ chosen))
  match shuffle_and_get_the_most_available_names (sh k selectable) cnt devs with
  | none => none
  | some picked => some (sunion chosen picked, k + 1)

/-- One record's view of the final loop of a developer iteration of
allocate_reviewers: a record whose name was chosen records the current
developer in review_for; the current developer's record receives the
chosen roster names. -/
def applyOne (nm : String) (chosen addedNames : List String) (r : Developer) :
    Developer :=
  let r1 := if r.name ∈ chosen then { r with review_for := sinsert nm r.review_for } else r
  if r1.name = nm then { r1 with reviewer_names := sunion r1.reviewer_names addedNames } else r1

/-- Final loop of one developer iteration of allocate_reviewers: every
roster developer whose name was chosen is added to the current developer's
reviewer_names and records the current developer in its review_for. -/
def applyChosen (devs : List Developer) (nm : String) (chosen : List String) :
    List Developer :=
  devs.map (applyOne nm chosen ((devs.filter (fun r => r.name ∈ chosen)).map (fun r => r.name)))

/-- Body of the main loop of allocate_reviewers (allocate_reviewers.py,
lines 110-160) for the developer named nm: clamp the quota, run the three
configured phases (preferable, experienced, all developers) and apply the
chosen reviewers to the roster state. -/
def allocateOne (sh : ShuffleOracle) (allNames validExp : List String)
    (devs : List Developer) (nm : String) (k : Nat) :
    Option (List Developer × Nat) :=
  match lookupDev devs nm with
  | none => some (devs, k)
  | some d =>
    let target := min d.reviewer_number (allNames.length - 1)
    match phaseStep sh devs nm d.preferable_reviewer_names (target - 0) [] k with
    | none => none
    | some (c1, k1) =>
      let expCnt := if c1.any (fun x => x ∈ validExp) then 0 else 1
      match phaseStep sh devs nm validExp expCnt c1 k1 with
      | none => none
      | some (c2, k2) =>
        match phaseStep sh devs nm allNames (target - c2.length) c2 k2 with
        | none => none
        | some (c3, k3) => some (applyChosen devs nm c3, k3)

/-- Iterate allocateOne over the processing order of the roster. -/
def allocateGo (sh : ShuffleOracle) (allNames validExp : List String) :
    List String → List Developer → Nat → Option (List Developer × Nat)
  | [], devs, k => some (devs, k)
  | nm :: rest, devs, k =>
    match allocateOne sh allNames validExp devs nm k with
    | none => none
    | some (devs1, k1) => allocateGo sh allNames validExp rest devs1 k1

/-- Mirror of allocate_reviewers of allocate_reviewers.py.  expNames is the
configured experienced-name set (EXPERIENCED_DEV_NAMES).  The in-place
Python sort by the preferable_reviewer_names sets (a partial order, so the
resulting order is implementation determined) is modelled by taking the
roster in an arbitrary processing order: theorems quantify over every order
of the same records, which covers the order the Python sort produces. -/
def allocate_reviewers (sh : ShuffleOracle) (expNames : List String)
    (devs : List Developer) : Option (List Developer) :=
  let allNames := (devs.map (fun d => d.name)).dedup
  let validExp := expNames.filter (fun nm => nm ∈ allNames)
  (allocateGo sh allNames validExp (devs.map (fun d => d.name)) devs 0).map (fun p => p.1)

/-- Identity oracle: the shuffle returns the pool in its listed order.  One
concrete admissible oracle, used to exhibit concrete executions. -/
def shId : ShuffleOracle := fun _ l => l

/-- Assignment-count bump of assign_team_reviewers (rotate_reviewers.py):
the tracking loop increments the count of every selected name. -/
def bump (ac : String → Nat) (selected : List String) : String → Nat :=
  fun x => ac x + selected.count x

/-- Mirror of select_balanced inside assign_team_reviewers
(rotate_reviewers.py, lines 100-112): return all candidates when the count
saturates the pool, otherwise shuffle, stable-sort by assignment count and
truncate.  The shuffled argument is the oracle's permutation of the
candidates copy. -/
def select_balanced (shuffled : List String) (candidates : List String)
    (count : Nat) (ac : String → Nat) : List String :=
  if candidates.length ≤ count then candidates
  else (isort (fun a b => ac a ≤ ac b) shuffled).take count

/-- Body of the team loop of assign_team_reviewers (rotate_reviewers.py,
lines 115-167) for one team: reset the assignment fields, then branch on
the team composition, updating the shared assignment-count map. -/
def assignOneTeam (sh : ShuffleOracle) (expList : List String)
    (team : Developer) (ac : String → Nat) (k : Nat) :
    Developer × (String → Nat) × Nat :=
  let members := team.preferable_reviewer_names
  let numMembers := members.length
  let numReviewers := team.reviewer_number
  if numMembers = 0 then
    let selected := select_balanced (sh k expList) expList numReviewers ac
    ({ team with reviewer_indexes := [], reviewer_names := sunion [] selected },
      bump ac selected, k + 1)
  else if numMembers < numReviewers then
    let rv1 := sunion [] members
    let ac1 := bump ac members
    let eligible := expList.filter (fun x => x ∉ members)
    let remaining := numReviewers - numMembers
    if eligible ≠ [] ∧ 0 < remaining then
      let selected := select_balanced (sh k eligible) eligible remaining ac1
      ({ team with reviewer_indexes := [], reviewer_names := sunion rv1 selected },
        bump ac1 selected, k + 1)
    else
      ({ team with reviewer_indexes := [], reviewer_names := rv1 }, ac1, k)
  else
    let selected := select_balanced (sh k members) members numReviewers ac
    ({ team with reviewer_indexes := [], reviewer_names := sunion [] selected },
      bump ac selected, k + 1)

/-- Process all teams in order, threading the shared assignment-count map
and the oracle counter. -/
def assignTeamsGo (sh : ShuffleOracle) (expList : List String) :
    List Developer → (String → Nat) → Nat → List Developer
  | [], _, _ => []
  | team :: rest, ac, k =>
    let r := assignOneTeam sh expList team ac k
    r.1 :: assignTeamsGo sh expList rest r.2.1 r.2.2

/-- Mirror of assign_team_reviewers of rotate_reviewers.py: raises
(returns none) when the configured experienced list is empty, otherwise
assigns reviewers to every team with cross-team load balancing.  The team
membership is stored in preferable_reviewer_names, exactly as the caller
of the source does. -/
def assign_team_reviewers (sh : ShuffleOracle) (expList : List String)
    (teams : List Developer) : Option (List Developer) :=
  if expList.isEmpty then none
  else some (assignTeamsGo sh expList teams (fun _ => 0) 0)

/-- Update the roster record with the given name (Python mutates the object
found by next(d for d in devs if d.name == name); rosters have unique
names). -/
def updDev (devs : List Developer) (nm : String) (f : Developer → Developer) :
    List Developer :=
  devs.map (fun r => if r.name = nm then f r else r)

/-- Roster records whose name is in avail, in roster order, stable-sorted
by review load: the candidates list of the repair phases of
scripts/rotate_devs_reviewers.py. -/
def candidatesSorted (devs : List Developer) (avail : List String) :
    List Developer :=
  isort (fun a b => a.review_for.length ≤ b.review_for.length)
    (devs.filter (fun dd => dd.name ∈ avail))

/-- Phase 1 body of run_reviewer_allocation_algorithm
(scripts/rotate_devs_reviewers.py, lines 199-243) for the developer named
nm: try the preferable reviewers, fill the remainder blindly from all
developers, then apply the assignments (raising, i.e. none, when a chosen
name has no roster record). -/
def runAlgPhase1One (sh : ShuffleOracle) (allNames : List String)
    (devs : List Developer) (nm : String) (k : Nat) :
    Option (List Developer × Nat) :=
  match lookupDev devs nm with
  | none => some (devs, k)
  | some d =>
    let reviewerNumber := min d.reviewer_number (allNames.length - 1)
    let step1 : Option (List String × Nat) :=
      if d.preferable_reviewer_names ≠ [] then
        let availablePreferable := d.preferable_reviewer_names.filter (fun x => x ≠ nm)
        if availablePreferable ≠ [] ∧ 0 < reviewerNumber then
          match shuffle_and_get_the_most_available_names
              (sh k availablePreferable) reviewerNumber devs with
          | none => none
          | some selected => some (sunion [] selected, k + 1)
        else some ([], k)
      else some ([], k)
    match step1 with
    | none => none
    | some (c1, k1) =>
      let remainingNeeded := reviewerNumber - c1.length
      let step2 : Option (List String × Nat) :=
        if 0 < remainingNeeded then
          let available := allNames.filter (fun x => ¬ (x ∈ c1 ∨ x = nm))
          match shuffle_and_get_the_most_available_names
              (sh k1 available) remainingNeeded devs with
          | none => none
          | some selected => some (sunion c1 selected, k1 + 1)
        else some (c1, k1)
      match step2 with
      | none => none
      | some (c2, k2) =>
        if c2.all (fun x => (lookupDev devs x).isSome) then
          some (applyChosen devs nm c2, k2)
        else none

/-- Iterate phase 1 over the processing order. -/
def runAlgPhase1Go (sh : ShuffleOracle) (allNames : List String) :
    List String → List Developer → Nat → Option (List Developer × Nat)
  | [], devs, k => some (devs, k)
  | nm :: rest, devs, k =>
    match runAlgPhase1One sh allNames devs nm k with
    | none => none
    | some (devs1, k1) => runAlgPhase1Go sh allNames rest devs1 k1

/-- Rule 1 of the repair phase (scripts/rotate_devs_reviewers.py, lines
258-293): a developer without an experienced reviewer gets the least
loaded available experienced developer, first evicting one non-experienced
reviewer when the quota is already filled. -/
def rule1 (validExp nonExp : List String) (devs : List Developer)
    (nm : String) : List Developer :=
  match lookupDev devs nm with
  | none => devs
  | some d =>
    if d.reviewer_names.filter (fun x => x ∈ validExp) = [] then
      let availableExp := validExp.filter (fun x => ¬ (x ∈ d.reviewer_names ∨ x = nm))
      if availableExp ≠ [] then
        match candidatesSorted devs availableExp with
        | [] => devs
        | replacement :: _ =>
          let currentNonExp := d.reviewer_names.filter (fun x => x ∈ nonExp)
          let devs1 :=
            if d.reviewer_number ≤ d.reviewer_names.length ∧ currentNonExp ≠ [] then
              match currentNonExp with
              | [] => devs
              | toRemove :: _ =>
                updDev
                  (updDev devs nm
                    (fun r => { r with reviewer_names := r.reviewer_names.erase toRemove }))
                  toRemove (fun r => { r with review_for := r.review_for.erase nm })
            else devs
          updDev
            (updDev devs1 nm
              (fun r => { r with reviewer_names := sinsert replacement.name r.reviewer_names }))
            replacement.name (fun r => { r with review_for := sinsert nm r.review_for })
      else devs
    else devs

/-- Inner loop of rule 2 (scripts/rotate_devs_reviewers.py, lines 307-334):
walk the snapshot of non-experienced reviewers, removing each one still
present and replacing it with the least loaded available experienced
developer. -/
def rule2Go (validExp : List String) (nm : String) :
    List String → List Developer → List Developer
  | [], devs => devs
  | x :: rest, devs =>
    match lookupDev devs nm with
    | none => devs
    | some d =>
      if x ∉ d.reviewer_names then rule2Go validExp nm rest devs
      else
        let devs1 :=
          updDev
            (updDev devs nm
              (fun r => { r with reviewer_names := r.reviewer_names.erase x }))
            x (fun r => { r with review_for := r.review_for.erase nm })
        let rvAfter := d.reviewer_names.erase x
        let availableExp := validExp.filter (fun y => ¬ (y ∈ rvAfter ∨ y = nm))
        let devs2 :=
          if availableExp ≠ [] then
            match candidatesSorted devs1 availableExp with
            | [] => devs1
            | replacement :: _ =>
              updDev
                (updDev devs1 nm
                  (fun r => { r with reviewer_names := sinsert replacement.name r.reviewer_names }))
                replacement.name (fun r => { r with review_for := sinsert nm r.review_for })
          else devs1
        rule2Go validExp nm rest devs2

/-- Rule 2 entry (lines 295-335): only non-experienced developers, only
when they have non-experienced reviewers. -/
def rule2 (validExp nonExp : List String) (devs : List Developer)
    (nm : String) : List Developer :=
  match lookupDev devs nm with
  | none => devs
  | some d =>
    let cur := d.reviewer_names.filter (fun x => x ∈ nonExp)
    if nm ∉ validExp ∧ cur ≠ [] then rule2Go validExp nm cur devs else devs

/-- Inner loop of rule 3 (lines 351-377): remove every surplus
non-experienced reviewer beyond the first, replacing it when an
experienced developer is available. -/
def rule3Go (validExp : List String) (nm : String) :
    List String → List Developer → List Developer
  | [], devs => devs
  | x :: rest, devs =>
    let devs1 :=
      updDev
        (updDev devs nm
          (fun r => { r with reviewer_names := r.reviewer_names.erase x }))
        x (fun r => { r with review_for := r.review_for.erase nm })
    let devs2 :=
      match lookupDev devs1 nm with
      | none => devs1
      | some d1 =>
        let availableExp := validExp.filter (fun y => ¬ (y ∈ d1.reviewer_names ∨ y = nm))
        if availableExp ≠ [] then
          match candidatesSorted devs1 availableExp with
          | [] => devs1
          | replacement :: _ =>
            updDev
              (updDev devs1 nm
                (fun r => { r with reviewer_names := sinsert replacement.name r.reviewer_names }))
              replacement.name (fun r => { r with review_for := sinsert nm r.review_for })
        else devs1
    rule3Go validExp nm rest devs2

/-- Rule 3 entry (lines 337-377): experienced developers keep at most one
non-experienced reviewer; surplus ones are removed in snapshot order. -/
def rule3 (validExp nonExp : List String) (devs : List Developer)
    (nm : String) : List Developer :=
  match lookupDev devs nm with
  | none => devs
  | some d =>
    let cur := d.reviewer_names.filter (fun x => x ∈ nonExp)
    if nm ∈ validExp ∧ 1 < cur.length then
      match cur with
      | [] => devs
      | _toKeep :: toRemove => rule3Go validExp nm toRemove devs
    else devs

/-- Candidates of phase 3 (lines 403-424): experienced roster records,
other than the unassigned developer, with no non-experienced reviewer and
free quota space, in roster order. -/
def phase3Candidates (validExp nonExp : List String) (devs : List Developer)
    (nm : String) : List Developer :=
  devs.filter (fun e => e.name ∈ validExp ∧ e.name ≠ nm ∧
    (e.reviewer_names.filter (fun x => x ∈ nonExp)).length = 0 ∧
    e.reviewer_names.length < e.reviewer_number)

/-- Phase 3 loop (lines 400-443): assign each still-unassigned
non-experienced developer as reviewer of the least loaded candidate, when
one exists. -/
def phase3Go (validExp nonExp : List String) :
    List String → List Developer → List Developer
  | [], devs => devs
  | nm :: rest, devs =>
    let cands := isort (fun a b => a.review_for.length ≤ b.review_for.length)
      (phase3Candidates validExp nonExp devs nm)
    match cands with
    | [] => phase3Go validExp nonExp rest devs
    | chosen :: _ =>
      let devs1 :=
        updDev
          (updDev devs chosen.name
            (fun r => { r with reviewer_names := sinsert nm r.reviewer_names }))
          nm (fun r => { r with review_for := sinsert chosen.name r.review_for })
      phase3Go validExp nonExp rest devs1

/-- Mirror of run_reviewer_allocation_algorithm of
scripts/rotate_devs_reviewers.py: sort the roster by preferable-list size
descending (stable), run the blind phase 1, then the repair rules 1-3 per
developer in order, then phase 3 for unassigned non-experienced
developers.  Returns the mutated roster in its sorted order, or none when
an attempt raises. -/
def run_reviewer_allocation_algorithm (sh : ShuffleOracle)
    (expNames : List String) (devs : List Developer) :
    Option (List Developer) :=
  let allNames := (devs.map (fun d => d.name)).dedup
  let validExp := expNames.filter (fun nm => nm ∈ allNames)
  let nonExp := allNames.filter (fun nm => nm ∉ validExp)
  let sorted := isort
    (fun a b => b.preferable_reviewer_names.length ≤ a.preferable_reviewer_names.length) devs
  let names := sorted.map (fun d => d.name)
  match runAlgPhase1Go sh allNames names sorted 0 with
  | none => none
  | some (devs1, _) =>
    let devs2 := names.foldl
      (fun st nm => rule3 validExp nonExp (rule2 validExp nonExp (rule1 validExp nonExp st nm) nm) nm)
      devs1
    let unassigned := isort (fun a b => a.review_for.length ≤ b.review_for.length)
      (devs2.filter (fun d => d.name ∈ nonExp ∧ d.review_for.length = 0))
    some (phase3Go validExp nonExp (unassigned.map (fun d => d.name)) devs2)

/-- Retry loop of allocate_reviewers of scripts/rotate_devs_reviewers.py
(lines 496-543), abstracted over the per-attempt algorithm: track the
best-scoring attempt (strict improvement over a zero start), return early
on a perfect attempt, and at the end write back the best attempt or raise
(none) when there is none. -/
def retryGo (alg : Nat → Option (List Developer)) (perfect : Nat)
    (score : List Developer → Nat) (wb : List Developer → List Developer) :
    Nat → Nat → Option (List Developer) → Nat → Option (List Developer)
  | 0, _, best, _ => best.map wb
  | fuel + 1, i, best, bestScore =>
    match alg i with
    | none => retryGo alg perfect score wb fuel (i + 1) best bestScore
    | some res =>
      let s := score res
      let best1 := if bestScore < s then some res else best
      let bs1 := if bestScore < s then s else bestScore
      if s = perfect then some (wb res)
      else retryGo alg perfect score wb fuel (i + 1) best1 bs1

/-- Mirror of allocate_reviewers of scripts/rotate_devs_reviewers.py (the
retry variant, lines 471-543).  alg is the per-attempt run of
run_reviewer_allocation_algorithm on a deep copy of the input (the attempt
index stands for the reseeded random state).  The score of an attempt is
the number of non-experienced developers left reviewing someone; write-back
copies reviewer_names and review_for of the attempt's i-th record into the
i-th record of the input list. -/
def allocate_reviewers_retry (alg : Nat → List Developer → Option (List Developer))
    (expNames : List String) (devs : List Developer) (max_retries : Nat) :
    Option (List Developer) :=
  let allNames := (devs.map (fun d => d.name)).dedup
  let validExp := expNames.filter (fun nm => nm ∈ allNames)
  let nonExp := allNames.filter (fun nm => nm ∉ validExp)
  let score := fun (l : List Developer) =>
    (l.filter (fun d => d.name ∈ nonExp ∧ d.review_for ≠ [])).length
  let wb := fun (best : List Developer) =>
    devs.zipWith
      (fun d c => { d with reviewer_names := c.reviewer_names, review_for := c.review_for })
      best
  retryGo (fun i => alg i devs) nonExp.length score wb max_retries 0 none 0

/-- Modelled from the spec: record used by the deterministic rotator of
section 4.4, whose implementation is not among the repository's source
files (only the data model and the spec describe it).  Rotation pointers
are natural ring indexes. -/
structure RotDev where
  name : String
  reviewer_number : Nat
  order : Int := 0
  preferable_reviewer_names : List String := []
  reviewer_names : List String := []
  reviewer_indexes : List Nat := []
  review_for : List String := []
deriving DecidableEq, Repr

/-- Maximum of a previous-index set, 0 when empty (the spec's default
previous index is 0). -/
def maxIdx (l : List Nat) : Nat := l.foldr max 0

/-- Update the ring record with the given name. -/
def updRot (ring : List RotDev) (nm : String) (f : RotDev → RotDev) :
    List RotDev :=
  ring.map (fun r => if r.name = nm then f r else r)

/-- Modelled from the spec: find_reviewer of section 4.4.  Walk forward
from start by skip, rejecting self, already chosen reviewers, candidates
at the global fairness cap, and non-senior candidates when a senior is
required.  The spec's recursion is unbounded; the model carries fuel and
returns none on exhaustion (the spec's infeasible-roster failure). -/
def findReviewer (expNames : List String) (maxAssign : Nat)
    (ring : List RotDev) (dnm : String) (drv : List String) (senior : Bool) :
    Nat → Nat → Nat → Option (Nat × Nat × Nat)
  | 0, _, _ => none
  | fuel + 1, start, skip =>
    let idx := start + skip
    match ring.get? (idx % ring.length) with
    | none => none
    | some cand =>
      if cand.name = dnm ∨ cand.name ∈ drv ∨
          maxAssign ≤ cand.review_for.length ∨
          (senior = true ∧ cand.name ∉ expNames) then
        findReviewer expNames maxAssign ring dnm drv senior fuel start (skip + 1)
      else some (idx % ring.length, idx, skip)

/-- Record an accepted reviewer: add the ring index to the developer's
reviewer_indexes, the candidate to its reviewer_names, and the developer
to the candidate's review_for. -/
def rotApply (ring : List RotDev) (dnm candName : String) (safeIdx : Nat) :
    List RotDev :=
  updRot
    (updRot ring dnm (fun r =>
      { r with reviewer_names := sinsert candName r.reviewer_names,
               reviewer_indexes := sinsert safeIdx r.reviewer_indexes }))
    candName (fun r => { r with review_for := sinsert dnm r.review_for })

/-- Modelled from the spec: first pass of the rotator, one senior reviewer
per developer, starting at the maximum of the developer's previous
indexes. -/
def rotFirstPass (expNames : List String) (maxAssign : Nat)
    (prev : String → List Nat) :
    List String → List RotDev → Option (List RotDev)
  | [], ring => some ring
  | nm :: rest, ring =>
    match ring.find? (fun r => r.name == nm) with
    | none => rotFirstPass expNames maxAssign prev rest ring
    | some d =>
      match findReviewer expNames maxAssign ring nm d.reviewer_names true
          ring.length (maxIdx (prev nm)) 1 with
      | none => none
      | some (safe, _, _) =>
        match ring.get? safe with
        | none => none
        | some cand =>
          rotFirstPass expNames maxAssign prev rest (rotApply ring nm cand.name safe)

/-- Modelled from the spec: second-pass walk for one developer, repeated
until the quota is reached, each time starting from the maximum used
index. -/
def rotFill (expNames : List String) (maxAssign : Nat) (nm : String) :
    Nat → List RotDev → Option (List RotDev)
  | 0, ring => some ring
  | fuel + 1, ring =>
    match ring.find? (fun r => r.name == nm) with
    | none => some ring
    | some d =>
      if d.reviewer_names.length < d.reviewer_number then
        match findReviewer expNames maxAssign ring nm d.reviewer_names false
            ring.length (maxIdx d.reviewer_indexes) 1 with
        | none => none
        | some (safe, _, _) =>
          match ring.get? safe with
          | none => none
          | some cand => rotFill expNames maxAssign nm fuel (rotApply ring nm cand.name safe)
      else some ring

/-- Second pass over all developers of the ring. -/
def rotSecondPass (expNames : List String) (maxAssign : Nat) :
    List (String × Nat) → List RotDev → Option (List RotDev)
  | [], ring => some ring
  | (nm, fuel) :: rest, ring =>
    match rotFill expNames maxAssign nm fuel ring with
    | none => none
    | some ring1 => rotSecondPass expNames maxAssign rest ring1

/-- Modelled from the spec: rotate of section 4.4.  Order the roster as a
fixed ring by the order field (stable), compute the global fairness cap as
the ceiling of the mean quota, then run the senior pass and the fill pass.
A roster of size zero is fatal. -/
def rotate (expNames : List String) (prev : String → List Nat)
    (devs : List RotDev) : Option (List RotDev) :=
  let ring := isort (fun a b => a.order ≤ b.order) devs
  let n := ring.length
  if n = 0 then none
  else
    let maxAssign := ((devs.map (fun d => d.reviewer_number)).sum + n - 1) / n
    let names := ring.map (fun d => d.name)
    match rotFirstPass expNames maxAssign prev names ring with
    | none => none
    | some ring1 =>
      rotSecondPass expNames maxAssign
        (ring.map (fun d => (d.name, d.reviewer_number))) ring1

/-- Projection forgetting the one field the rotator never reads: the
preferable list (team-membership) field. -/
def erasePref (d : RotDev) : RotDev :=
  { d with preferable_reviewer_names := [] }

/-- Decidable check of the no-self-review property of the spec: no record
contains its own name among its reviewers. -/
def noSelfReviewOK (out : List Developer) : Bool :=
  out.all (fun d => d.name ∉ d.reviewer_names)

/-- Decidable check of the mutual-inverse property of the spec: a name is
among a record's reviewers exactly when that record is among the named
record's review_for set. -/
def mutualInverseOK (out : List Developer) : Bool :=
  out.all (fun d => out.all (fun r =>
    (r.name ∈ d.reviewer_names) = (d.name ∈ r.review_for)))

/-- Decidable check of the mandatory-senior property of the spec: every
record has at least one reviewer from the given experienced-name set. -/
def mandatorySeniorOK (expNames : List String) (out : List Developer) : Bool :=
  out.all (fun d => d.reviewer_names.any (fun e => e ∈ expNames))

/-- Decidable check of the quota property of the spec: no record has more
reviewers than the maximum of its quota and one. -/
def quotaOK (out : List Developer) : Bool :=
  out.all (fun d => d.reviewer_names.length ≤ max d.reviewer_number 1)

/-- One attempt of the retry allocator: run the allocation algorithm with
the identity oracle on the pristine roster, whatever the attempt index
(one realizable behaviour of the reseeded random state). -/
def runAlgId (expNames : List String) :
    Nat → List Developer → Option (List Developer) :=
  fun _ ds => run_reviewer_allocation_algorithm shId expNames ds

/-- Failing roster for the retry allocate_reviewers of
scripts/rotate_devs_reviewers.py: B prefers A, so the attempt copy gets
sorted as B, A, C while the write-back is positional on A, B, C. -/
def devsBug : List Developer :=
  [ { name := "A", reviewer_number := 1 },
    { name := "B", reviewer_number := 1, preferable_reviewer_names := ["A"] },
    { name := "C", reviewer_number := 1 } ]

/-- Roster with no experienced developer: every repair pass strips all
reviewers again, so every attempt completes with score zero. -/
def devsNoExp : List Developer :=
  [ { name := "A", reviewer_number := 1 },
    { name := "B", reviewer_number := 1, preferable_reviewer_names := ["A"] } ]

/-- Two-developer roster whose only experienced name is A itself. -/
def devsSoleExp : List Developer :=
  [ { name := "A", reviewer_number := 1 }, { name := "B", reviewer_number := 1 } ]

/-- Roster where the preferable phase fills the whole quota with
non-experienced names, after which the mandatory experienced phase still
adds one more reviewer. -/
def devsQuota : List Developer :=
  [ { name := "A", reviewer_number := 2, preferable_reviewer_names := ["B", "C"] },
    { name := "B", reviewer_number := 2 },
    { name := "C", reviewer_number := 2 },
    { name := "D", reviewer_number := 2 } ]

/-- Roster whose first record prefers a name that is not on the roster. -/
def devsGhostPref : List Developer :=
  [ { name := "A", reviewer_number := 1, preferable_reviewer_names := ["Z"] },
    { name := "B", reviewer_number := 1 } ]

/-- Teams roster in which the first team's member list names the second
team, so an assigned reviewer name is itself a record name. -/
def teamsPair : List Developer :=
  [ { name := "T1", reviewer_number := 1, preferable_reviewer_names := ["T2"] },
    { name := "T2", reviewer_number := 1 } ]

/-- Roster for the selector load-fairness scenario: review loads 0, 1 and
2 for A, B and C. -/
def devsLoads : List Developer :=
  [ { name := "A", reviewer_number := 1 },
    { name := "B", reviewer_number := 1, review_for := ["x"] },
    { name := "C", reviewer_number := 1, review_for := ["x", "y"] } ]

/-- Rotator witness roster. -/
def rotRosterA : List RotDev :=
  [ { name := "A", reviewer_number := 2, order := 1 },
    { name := "B", reviewer_number := 2, order := 2, preferable_reviewer_names := ["A"] },
    { name := "C", reviewer_number := 2, order := 3 } ]

/-- The same rotator roster with different preferable (team-membership)
fields, the one input the rotator never reads. -/
def rotRosterB : List RotDev :=
  [ { name := "A", reviewer_number := 2, order := 1, preferable_reviewer_names := ["C", "B"] },
    { name := "B", reviewer_number := 2, order := 2 },
    { name := "C", reviewer_number := 2, order := 3, preferable_reviewer_names := ["Q"] } ]

/-- Computed output of the basic allocator on devsSoleExp with experienced
set A and the identity oracle: record A. -/
def recSoleA : Developer :=
  { name := "A", reviewer_number := 1, reviewer_names := ["B"], review_for := ["B"] }

/-- Computed output of the basic allocator on devsSoleExp: record B. -/
def recSoleB : Developer :=
  { name := "B", reviewer_number := 1, reviewer_names := ["A"], review_for := ["A"] }

/-- Computed output roster of the basic allocator on devsSoleExp. -/
def outSoleExp : List Developer := [recSoleA, recSoleB]

/-- Computed output record A of the basic allocator on devsQuota: three
reviewers against a quota of two. -/
def recQuotaA : Developer :=
  { name := "A", reviewer_number := 2, preferable_reviewer_names := ["B", "C"],
    reviewer_names := ["B", "C", "D"], review_for := ["B", "C"] }

/-- Computed output roster of the basic allocator on devsQuota. -/
def outQuota : List Developer :=
  [ recQuotaA,
    { name := "B", reviewer_number := 2, reviewer_names := ["A", "D"], review_for := ["A", "D"] },
    { name := "C", reviewer_number := 2, reviewer_names := ["A", "D"], review_for := ["A", "D"] },
    { name := "D", reviewer_number := 2, reviewer_names := ["B", "C"], review_for := ["A", "B", "C"] } ]

/-- Teams roster exercising the three composition cases: no members, one
member, three members. -/
def teamsTriple : List Developer :=
  [ { name := "TA", reviewer_number := 2 },
    { name := "TB", reviewer_number := 2, preferable_reviewer_names := ["M1"] },
    { name := "TC", reviewer_number := 2, preferable_reviewer_names := ["M2", "M3", "M4"] } ]

/-- Computed output of the team allocator on teamsTriple with experienced
pool E1, E2, E3 and the identity oracle. -/
def outTeamsTriple : List Developer :=
  [ { name := "TA", reviewer_number := 2, reviewer_names := ["E1", "E2"] },
    { name := "TB", reviewer_number := 2, preferable_reviewer_names := ["M1"],
      reviewer_names := ["M1", "E3"] },
    { name := "TC", reviewer_number := 2, preferable_reviewer_names := ["M2", "M3", "M4"],
      reviewer_names := ["M2", "M3"] } ]

/-- Non-experienced names of a roster as the retry allocator computes
them: roster names minus the valid experienced names. -/
def nonExpOf (expNames : List String) (devs : List Developer) : List String :=
  (devs.map (fun d => d.name)).dedup.filter
    (fun nm => nm ∉ expNames.filter (fun y => y ∈ (devs.map (fun d => d.name)).dedup))

/-- Score of one retry attempt: how many non-experienced developers are
left reviewing someone. -/
def retryScore (expNames : List String) (devs : List Developer)
    (l : List Developer) : Nat :=
  (l.filter (fun d => d.name ∈ nonExpOf expNames devs ∧ d.review_for ≠ [])).length

/-- The team-composition contract of the spec for one team and its output
record: an empty team draws entirely from the experienced pool (exactly
its quota when the pool suffices), an under-quota team keeps all its
members and fills the difference from the experienced pool minus the
members, and a team at or above quota draws exactly its quota from its
membership. -/
def TeamSpec (expList : List String) (t o : Developer) : Prop :=
  (t.preferable_reviewer_names = [] →
    (∀ x ∈ o.reviewer_names, x ∈ expList) ∧
    (t.reviewer_number ≤ expList.length →
      o.reviewer_names.length = t.reviewer_number)) ∧
  (t.preferable_reviewer_names ≠ [] →
    t.preferable_reviewer_names.length < t.reviewer_number →
    (∀ x ∈ t.preferable_reviewer_names, x ∈ o.reviewer_names) ∧
    (∀ x ∈ o.reviewer_names,
      x ∈ t.preferable_reviewer_names ∨ (x ∈ expList ∧ x ∉ t.preferable_reviewer_names)) ∧
    o.reviewer_names.length =
      t.preferable_reviewer_names.length +
        min (t.reviewer_number - t.preferable_reviewer_names.length)
          ((expList.filter (fun x => x ∉ t.preferable_reviewer_names)).length)) ∧
  (t.reviewer_number ≤ t.preferable_reviewer_names.length →
    o.reviewer_names.length = t.reviewer_number ∧
    ∀ x ∈ o.reviewer_names, x ∈ t.preferable_reviewer_names)

/-- The mutual-inverse invariant of the spec, over a roster state: a name
is among a record's reviewers exactly when that record's name is in the
named record's review_for set. -/
def MutualInv (devs : List Developer) : Prop :=
  ∀ d ∈ devs, ∀ r ∈ devs, (r.name ∈ d.reviewer_names ↔ d.name ∈ r.review_for)

theorem mem_sinsert {α : Type} [DecidableEq α] {x y : α} {l : List α} :
    y ∈ sinsert x l ↔ y = x ∨ y ∈ l := by
  unfold sinsert
  split
  · rename_i hx
    constructor
    · exact fun h => Or.inr h
    · rintro (rfl | h)
      · exact hx
      · exact h
  · simp only [List.mem_append, List.mem_singleton]
    exact or_comm

theorem nodup_sinsert {α : Type} [DecidableEq α] {x : α} {l : List α}
    (h : l.Nodup) : (sinsert x l).Nodup := by
  unfold sinsert
  split
  · exact h
  · rename_i hx
    simp only [List.nodup_append, List.nodup_cons, List.not_mem_nil,
      not_false_iff, List.nodup_nil, and_true, true_and]
    refine ⟨h, ?_⟩
    intro a ha hb
    simp only [List.mem_singleton] at hb
    exact hx (hb ▸ ha)

theorem length_sinsert_le {α : Type} [DecidableEq α] (x : α) (l : List α) :
    (sinsert x l).length ≤ l.length + 1 := by
  unfold sinsert
  split
  · exact Nat.le_succ _
  · simp [List.length_append]

theorem mem_sunion {α : Type} [DecidableEq α] {y : α} {l xs : List α} :
    y ∈ sunion l xs ↔ y ∈ l ∨ y ∈ xs := by
  induction xs generalizing l with
  | nil => simp [sunion]
  | cons a as ih =>
    show y ∈ sunion (sinsert a l) as ↔ _
    rw [ih, mem_sinsert]
    simp only [List.mem_cons]
    tauto

theorem nodup_sunion {α : Type} [DecidableEq α] {l xs : List α}
    (h : l.Nodup) : (sunion l xs).Nodup := by
  induction xs generalizing l with
  | nil => exact h
  | cons a as ih => exact ih (nodup_sinsert h)

theorem length_sunion_le {α : Type} [DecidableEq α] (l xs : List α) :
    (sunion l xs).length ≤ l.length + xs.length := by
  induction xs generalizing l with
  | nil => simp [sunion]
  | cons a as ih =>
    show (sunion (sinsert a l) as).length ≤ _
    calc (sunion (sinsert a l) as).length ≤ (sinsert a l).length + as.length := ih _
    _ ≤ (l.length + 1) + as.length := Nat.add_le_add_right (length_sinsert_le a l) _
    _ = l.length + (a :: as).length := by simp [List.length_cons]; omega

theorem subset_sunion_left {α : Type} [DecidableEq α] {l xs : List α} :
    l ⊆ sunion l xs := fun _ h => mem_sunion.mpr (Or.inl h)

theorem perm_insSorted {α : Type} (le : α → α → Bool) (x : α) (l : List α) :
    (insSorted le x l).Perm (x :: l) := by
  induction l with
  | nil => exact List.Perm.refl _
  | cons y ys ih =>
    unfold insSorted
    split
    · exact List.Perm.refl _
    · exact (ih.cons y).trans (List.Perm.swap x y ys)

theorem perm_isort {α : Type} (le : α → α → Bool) (l : List α) :
    (isort le l).Perm l := by
  induction l with
  | nil => exact List.Perm.refl _
  | cons x xs ih =>
    exact (perm_insSorted le x (isort le xs)).trans (ih.cons x)

theorem mem_isort {α : Type} {le : α → α → Bool} {x : α} {l : List α} :
    x ∈ isort le l ↔ x ∈ l :=
  (perm_isort le l).mem_iff

theorem length_isort {α : Type} (le : α → α → Bool) (l : List α) :
    (isort le l).length = l.length :=
  (perm_isort le l).length_eq

theorem selector_length_le {shuffled : List String} {n : Nat}
    {devs : List Developer} {picked : List String}
    (h : shuffle_and_get_the_most_available_names shuffled n devs = some picked) :
    picked.length ≤ n := by
  unfold shuffle_and_get_the_most_available_names at h
  split at h
  · cases h
    simp_all
  · split at h
    · cases h
      rename_i hlen _
      omega
    · split at h
      · cases h
        simp [List.length_take]
      · cases h

theorem selector_subset {shuffled : List String} {n : Nat}
    {devs : List Developer} {picked : List String}
    (h : shuffle_and_get_the_most_available_names shuffled n devs = some picked) :
    ∀ y ∈ picked, y ∈ shuffled := by
  unfold shuffle_and_get_the_most_available_names at h
  split at h
  · cases h
    intro y hy
    cases hy
  · split at h
    · cases h
      exact fun y hy => hy
    · split at h
      · cases h
        intro y hy
        exact mem_isort.mp (List.take_subset _ _ hy)
      · cases h

theorem selector_isSome {shuffled : List String} {n : Nat}
    {devs : List Developer}
    (h : ∀ x ∈ shuffled, (lookupDev devs x).isSome) :
    (shuffle_and_get_the_most_available_names shuffled n devs).isSome := by
  unfold shuffle_and_get_the_most_available_names
  split
  · rfl
  · split
    · rfl
    · split
      · rfl
      · rename_i hall
        exact absurd (List.all_eq_true.mpr (fun x hx => h x hx)) hall

theorem selector_nonempty {shuffled : List String} {n : Nat}
    {devs : List Developer} {picked : List String}
    (hne : shuffled ≠ []) (hn : n ≠ 0)
    (h : shuffle_and_get_the_most_available_names shuffled n devs = some picked) :
    picked ≠ [] := by
  unfold shuffle_and_get_the_most_available_names at h
  split at h
  · exact absurd (by assumption) hn
  · split at h
    · rename_i hlen
      exact absurd (List.length_eq_zero.mp hlen) hne
    · split at h
      · cases h
        have hl : (isort (fun a b => loadOf devs a ≤ loadOf devs b) shuffled).length
            = shuffled.length := length_isort _ _
        intro hemp
        have := congrArg List.length hemp
        simp only [List.length_take, hl, List.length_nil] at this
        have h1 : 0 < shuffled.length := List.length_pos.mpr hne
        omega
      · cases h

theorem selector_full {shuffled : List String} {n : Nat}
    {devs : List Developer} {picked : List String}
    (hlen : shuffled.length ≤ n)
    (h : shuffle_and_get_the_most_available_names shuffled n devs = some picked) :
    ∀ x ∈ shuffled, x ∈ picked := by
  unfold shuffle_and_get_the_most_available_names at h
  split at h
  · rename_i h0
    subst h0
    cases h
    intro x hx
    have : shuffled.length = 0 := Nat.le_zero.mp hlen
    rw [List.length_eq_zero.mp this] at hx
    cases hx
  · split at h
    · cases h
      exact fun x hx => hx
    · split at h
      · cases h
        intro x hx
        have hl : (isort (fun a b => loadOf devs a ≤ loadOf devs b) shuffled).length
            = shuffled.length := length_isort _ _
        rw [List.take_of_length_le (by omega)]
        exact mem_isort.mpr hx
      · cases h

theorem applyOne_name (nm : String) (c a : List String) (r : Developer) :
    (applyOne nm c a r).name = r.name := by
  obtain ⟨n0, rn0, p0, rv0, ri0, rf0, o0⟩ := r
  by_cases hc : n0 ∈ c <;> by_cases hn : n0 = nm <;>
    first
    | (subst hn; simp [applyOne, hc])
    | simp [applyOne, hc, hn]

theorem applyOne_reviewer_number (nm : String) (c a : List String)
    (r : Developer) :
    (applyOne nm c a r).reviewer_number = r.reviewer_number := by
  obtain ⟨n0, rn0, p0, rv0, ri0, rf0, o0⟩ := r
  by_cases hc : n0 ∈ c <;> by_cases hn : n0 = nm <;>
    first
    | (subst hn; simp [applyOne, hc])
    | simp [applyOne, hc, hn]

theorem applyOne_preferable (nm : String) (c a : List String)
    (r : Developer) :
    (applyOne nm c a r).preferable_reviewer_names = r.preferable_reviewer_names := by
  obtain ⟨n0, rn0, p0, rv0, ri0, rf0, o0⟩ := r
  by_cases hc : n0 ∈ c <;> by_cases hn : n0 = nm <;>
    first
    | (subst hn; simp [applyOne, hc])
    | simp [applyOne, hc, hn]

theorem applyOne_rv_of_ne {nm : String} {c a : List String} {r : Developer}
    (h : r.name ≠ nm) :
    (applyOne nm c a r).reviewer_names = r.reviewer_names := by
  obtain ⟨n0, rn0, p0, rv0, ri0, rf0, o0⟩ := r
  simp only at h
  by_cases hc : n0 ∈ c <;> simp [applyOne, hc, h]

theorem applyOne_rv_of_eq {nm : String} {c a : List String} {r : Developer}
    (h : r.name = nm) :
    (applyOne nm c a r).reviewer_names = sunion r.reviewer_names a := by
  obtain ⟨n0, rn0, p0, rv0, ri0, rf0, o0⟩ := r
  simp only at h
  subst h
  by_cases hc : n0 ∈ c <;> simp [applyOne, hc]

theorem applyOne_review_for (nm : String) (c a : List String) (r : Developer) :
    (applyOne nm c a r).review_for =
      if r.name ∈ c then sinsert nm r.review_for else r.review_for := by
  obtain ⟨n0, rn0, p0, rv0, ri0, rf0, o0⟩ := r
  by_cases hc : n0 ∈ c <;> by_cases hn : n0 = nm <;>
    first
    | (subst hn; simp [applyOne, hc])
    | simp [applyOne, hc, hn]

theorem applyChosen_map_name (devs : List Developer) (nm : String)
    (c : List String) :
    (applyChosen devs nm c).map (fun d => d.name) = devs.map (fun d => d.name) := by
  unfold applyChosen
  rw [List.map_map]
  exact List.map_congr_left (fun r _ => applyOne_name _ _ _ r)

theorem mem_addedNames {devs : List Developer} {c : List String} {y : String} :
    y ∈ (devs.filter (fun r => r.name ∈ c)).map (fun r => r.name) ↔
      y ∈ c ∧ y ∈ devs.map (fun d => d.name) := by
  constructor
  · intro h
    obtain ⟨r, hr, rfl⟩ := List.mem_map.mp h
    have := List.mem_filter.mp hr
    refine ⟨by simpa using this.2, List.mem_map.mpr ⟨r, this.1, rfl⟩⟩
  · rintro ⟨hc, hn⟩
    obtain ⟨r, hr, rfl⟩ := List.mem_map.mp hn
    exact List.mem_map.mpr ⟨r, List.mem_filter.mpr ⟨hr, by simpa using hc⟩, rfl⟩

theorem phaseStep_dest {sh : ShuffleOracle} {devs : List Developer}
    {nm : String} {pool : List String} {cnt : Nat} {chosen : List String}
    {k : Nat} {c' : List String} {k' : Nat}
    (h : phaseStep sh devs nm pool cnt chosen k = some (c', k')) :
    ∃ picked,
      shuffle_and_get_the_most_available_names
        (sh k (pool.filter (fun x => ¬ (x = nm ∨ x ∈ chosen)))) cnt devs = some picked ∧
      c' = sunion chosen picked ∧ k' = k + 1 := by
  unfold phaseStep at h
  dsimp only at h
  split at h
  · cases h
  · rename_i picked hp
    cases h
    exact ⟨picked, hp, rfl, rfl⟩

theorem phaseStep_mono {sh : ShuffleOracle} {devs : List Developer}
    {nm : String} {pool : List String} {cnt : Nat} {chosen : List String}
    {k : Nat} {c' : List String} {k' : Nat}
    (h : phaseStep sh devs nm pool cnt chosen k = some (c', k')) :
    ∀ y ∈ chosen, y ∈ c' := by
  obtain ⟨picked, _, rfl, _⟩ := phaseStep_dest h
  exact fun y hy => mem_sunion.mpr (Or.inl hy)

theorem phaseStep_nodup {sh : ShuffleOracle} {devs : List Developer}
    {nm : String} {pool : List String} {cnt : Nat} {chosen : List String}
    {k : Nat} {c' : List String} {k' : Nat}
    (hn : chosen.Nodup)
    (h : phaseStep sh devs nm pool cnt chosen k = some (c', k')) :
    c'.Nodup := by
  obtain ⟨picked, _, rfl, _⟩ := phaseStep_dest h
  exact nodup_sunion hn

theorem phaseStep_length {sh : ShuffleOracle} {devs : List Developer}
    {nm : String} {pool : List String} {cnt : Nat} {chosen : List String}
    {k : Nat} {c' : List String} {k' : Nat}
    (h : phaseStep sh devs nm pool cnt chosen k = some (c', k')) :
    c'.length ≤ chosen.length + cnt := by
  obtain ⟨picked, hp, rfl, _⟩ := phaseStep_dest h
  calc (sunion chosen picked).length ≤ chosen.length + picked.length :=
        length_sunion_le _ _
    _ ≤ chosen.length + cnt := Nat.add_le_add_left (selector_length_le hp) _

theorem phaseStep_mem {sh : ShuffleOracle} {devs : List Developer}
    {nm : String} {pool : List String} {cnt : Nat} {chosen : List String}
    {k : Nat} {c' : List String} {k' : Nat}
    (hsh : Admissible sh)
    (h : phaseStep sh devs nm pool cnt chosen k = some (c', k')) :
    ∀ y ∈ c', y ∈ chosen ∨ (y ∈ pool ∧ y ≠ nm ∧ y ∉ chosen) := by
  obtain ⟨picked, hp, rfl, _⟩ := phaseStep_dest h
  intro y hy
  rcases mem_sunion.mp hy with hc | hpk
  · exact Or.inl hc
  · have h1 : y ∈ sh k (pool.filter (fun x => ¬ (x = nm ∨ x ∈ chosen))) :=
      selector_subset hp y hpk
    have h2 : y ∈ pool.filter (fun x => ¬ (x = nm ∨ x ∈ chosen)) :=
      (hsh k _).mem_iff.mp h1
    have h3 := List.mem_filter.mp h2
    refine Or.inr ⟨h3.1, ?_, ?_⟩ <;> · have := h3.2 ; simp at this ; tauto

theorem phaseStep_exp {sh : ShuffleOracle} {devs : List Developer}
    {nm : String} {pool : List String} {chosen : List String}
    {k : Nat} {c' : List String} {k' : Nat}
    (hsh : Admissible sh)
    (hex : ∃ e ∈ pool, e ≠ nm ∧ e ∉ chosen)
    (h : phaseStep sh devs nm pool 1 chosen k = some (c', k')) :
    ∃ e ∈ c', e ∈ pool ∧ e ≠ nm := by
  obtain ⟨picked, hp, rfl, _⟩ := phaseStep_dest h
  obtain ⟨e0, he0, hne0, hnc0⟩ := hex
  have hsel : e0 ∈ pool.filter (fun x => ¬ (x = nm ∨ x ∈ chosen)) :=
    List.mem_filter.mpr ⟨he0, by simp [hne0, hnc0]⟩
  have hselne : pool.filter (fun x => ¬ (x = nm ∨ x ∈ chosen)) ≠ [] :=
    fun hnil => by rw [hnil] at hsel; cases hsel
  have hshne : sh k (pool.filter (fun x => ¬ (x = nm ∨ x ∈ chosen))) ≠ [] := by
    intro hnil
    have := (hsh k (pool.filter (fun x => ¬ (x = nm ∨ x ∈ chosen)))).length_eq
    rw [hnil] at this
    exact hselne (List.length_eq_zero.mp this.symm)
  have hpne : picked ≠ [] := selector_nonempty hshne (by omega) hp
  obtain ⟨e, he⟩ := List.exists_mem_of_ne_nil picked hpne
  have h1 : e ∈ sh k (pool.filter (fun x => ¬ (x = nm ∨ x ∈ chosen))) :=
    selector_subset hp e he
  have h2 := List.mem_filter.mp ((hsh k _).mem_iff.mp h1)
  refine ⟨e, mem_sunion.mpr (Or.inr he), h2.1, ?_⟩
  have := h2.2
  simp at this
  tauto

theorem lookup_self_of_nodup {devs : List Developer} {r : Developer}
    (hnodup : (devs.map (fun d => d.name)).Nodup) (hr : r ∈ devs) :
    lookupDev devs r.name = some r := by
  induction devs with
  | nil => cases hr
  | cons d ds ih =>
    rcases List.mem_cons.mp hr with rfl | hr'
    · unfold lookupDev
      simp [List.find?_cons_of_pos]
    · unfold lookupDev
      rw [List.find?_cons_of_neg]
      · exact ih (List.nodup_cons.mp (by simpa using hnodup)).2 hr'
      · have hd : d.name ∉ ds.map (fun d => d.name) :=
          (List.nodup_cons.mp (by simpa using hnodup)).1
        have : r.name ∈ ds.map (fun d => d.name) := List.mem_map.mpr ⟨r, hr', rfl⟩
        simp only [beq_iff_eq]
        intro hEq
        exact hd (hEq ▸ this)

theorem allocateOne_of_lookup_none {sh : ShuffleOracle}
    {allNames validExp : List String} {devs : List Developer} {nm : String}
    {k : Nat} {devs1 : List Developer} {k1 : Nat}
    (hlk : lookupDev devs nm = none)
    (h : allocateOne sh allNames validExp devs nm k = some (devs1, k1)) :
    devs1 = devs := by
  unfold allocateOne at h
  rw [hlk] at h
  cases h
  rfl

theorem allocateOne_characterize {sh : ShuffleOracle} {allNames validExp : List String}
    {devs : List Developer} {nm : String} {k : Nat} {d : Developer}
    {devs1 : List Developer} {k1 : Nat}
    (hlk : lookupDev devs nm = some d)
    (h : allocateOne sh allNames validExp devs nm k = some (devs1, k1)) :
    ∃ c : List String, devs1 = applyChosen devs nm c ∧ c.Nodup ∧
      c.length ≤ min d.reviewer_number (allNames.length - 1) + 1 ∧
      (Admissible sh → ∀ y ∈ c, y ≠ nm) ∧
      (Admissible sh → (∃ e ∈ validExp, e ≠ nm) → ∃ e ∈ c, e ∈ validExp ∧ e ≠ nm) := by
  unfold allocateOne at h
  rw [hlk] at h
  dsimp only at h
  cases h1 : phaseStep sh devs nm d.preferable_reviewer_names
      (min d.reviewer_number (allNames.length - 1) - 0) [] k with
  | none => rw [h1] at h; cases h
  | some p1 =>
    rw [h1] at h
    obtain ⟨c1, k1'⟩ := p1
    dsimp only at h
    cases h2 : phaseStep sh devs nm validExp
        (if c1.any (fun x => x ∈ validExp) then 0 else 1) c1 k1' with
    | none => rw [h2] at h; cases h
    | some p2 =>
      rw [h2] at h
      obtain ⟨c2, k2'⟩ := p2
      dsimp only at h
      cases h3 : phaseStep sh devs nm allNames
          (min d.reviewer_number (allNames.length - 1) - c2.length) c2 k2' with
      | none => rw [h3] at h; cases h
      | some p3 =>
        rw [h3] at h
        obtain ⟨c3, k3'⟩ := p3
        dsimp only at h
        cases h
        refine ⟨c3, rfl, ?_, ?_, ?_, ?_⟩
        · exact phaseStep_nodup (phaseStep_nodup (phaseStep_nodup List.nodup_nil h1) h2) h3
        · have l1 : c1.length ≤ min d.reviewer_number (allNames.length - 1) := by
            have := phaseStep_length h1
            simpa using this
          have l2 : c2.length ≤ c1.length + (if c1.any (fun x => x ∈ validExp) then 0 else 1) :=
            phaseStep_length h2
          have l3 : c3.length ≤ c2.length + (min d.reviewer_number (allNames.length - 1) - c2.length) :=
            phaseStep_length h3
          split at l2 <;> omega
        · intro hsh y hy
          rcases phaseStep_mem hsh h3 y hy with h' | h'
          · rcases phaseStep_mem hsh h2 y h' with h'' | h''
            · rcases phaseStep_mem hsh h1 y h'' with h3' | h3'
              · cases h3'
              · exact h3'.2.1
            · exact h''.2.1
          · exact h'.2.1
        · intro hsh hex
          by_cases hany : c1.any (fun x => x ∈ validExp)
          · obtain ⟨e, he, hev⟩ := List.any_eq_true.mp hany
            have hev' : e ∈ validExp := by simpa using hev
            have hene : e ≠ nm := by
              rcases phaseStep_mem hsh h1 e he with h' | h'
              · cases h'
              · exact h'.2.1
            exact ⟨e, phaseStep_mono h3 e (phaseStep_mono h2 e he), hev', hene⟩
          · rw [if_neg hany] at h2
            obtain ⟨e0, he0, hne0⟩ := hex
            have hnc1 : e0 ∉ c1 := by
              intro hmem
              exact hany (List.any_eq_true.mpr ⟨e0, hmem, by simpa using he0⟩)
            obtain ⟨e, he, hev, hene⟩ := phaseStep_exp hsh ⟨e0, he0, hne0, hnc1⟩ h2
            exact ⟨e, phaseStep_mono h3 e he, hev, hene⟩

theorem mutualInv_applyChosen {devs : List Developer} {nm : String}
    {c : List String} (hinv : MutualInv devs) :
    MutualInv (applyChosen devs nm c) := by
  intro d' hd' r' hr'
  unfold applyChosen at hd' hr'
  obtain ⟨d, hd, rfl⟩ := List.mem_map.mp hd'
  obtain ⟨r, hr, rfl⟩ := List.mem_map.mp hr'
  rw [applyOne_name, applyOne_name, applyOne_review_for]
  by_cases hdn : d.name = nm
  · rw [applyOne_rv_of_eq hdn, hdn, mem_sunion]
    constructor
    · rintro (hrv | hra)
      · have h0 := (hinv d hd r hr).mp hrv
        rw [hdn] at h0
        split
        · exact mem_sinsert.mpr (Or.inr h0)
        · exact h0
      · have hrc : r.name ∈ c := (mem_addedNames.mp hra).1
        rw [if_pos hrc]
        exact mem_sinsert.mpr (Or.inl rfl)
    · intro hrf
      by_cases hrc : r.name ∈ c
      · exact Or.inr (mem_addedNames.mpr ⟨hrc, List.mem_map.mpr ⟨r, hr, rfl⟩⟩)
      · rw [if_neg hrc] at hrf
        have h0 : d.name ∈ r.review_for := hdn ▸ hrf
        exact Or.inl ((hinv d hd r hr).mpr h0)
  · rw [applyOne_rv_of_ne hdn]
    split
    · rw [mem_sinsert]
      constructor
      · intro h0
        exact Or.inr ((hinv d hd r hr).mp h0)
      · rintro (h0 | h0)
        · exact absurd h0 hdn
        · exact (hinv d hd r hr).mpr h0
    · exact hinv d hd r hr

theorem allocateGo_mutualInv {sh : ShuffleOracle} {allNames validExp : List String} :
    ∀ {names : List String} {devs : List Developer} {k : Nat}
      {out : List Developer} {k' : Nat},
    MutualInv devs →
    allocateGo sh allNames validExp names devs k = some (out, k') →
    MutualInv out := by
  intro names
  induction names with
  | nil =>
    intro devs k out k' hinv h
    unfold allocateGo at h
    cases h
    exact hinv
  | cons nm rest ih =>
    intro devs k out k' hinv h
    unfold allocateGo at h
    cases h1 : allocateOne sh allNames validExp devs nm k with
    | none => rw [h1] at h; cases h
    | some p =>
      rw [h1] at h
      obtain ⟨devs1, k1⟩ := p
      cases h2 : lookupDev devs nm with
      | none =>
        have heq := allocateOne_of_lookup_none h2 h1
        subst heq
        exact ih hinv h
      | some d =>
        obtain ⟨c, rfl, -⟩ := allocateOne_characterize h2 h1
        exact ih (mutualInv_applyChosen hinv) h

theorem lookup_none_no_record {devs : List Developer} {nm : String}
    (h : lookupDev devs nm = none) : ∀ d ∈ devs, d.name ≠ nm := by
  intro d hd
  have := List.find?_eq_none.mp h d hd
  simpa using this

theorem allocateGo_quota {sh : ShuffleOracle} {allNames validExp : List String} :
    ∀ {names : List String} {devs : List Developer} {k : Nat}
      {out : List Developer} {k' : Nat},
    (devs.map (fun d => d.name)).Nodup → names.Nodup →
    (∀ d ∈ devs, d.name ∈ names → d.reviewer_names = []) →
    (∀ d ∈ devs, d.reviewer_names = [] ∨
      d.reviewer_names.length ≤ min d.reviewer_number (allNames.length - 1) + 1) →
    allocateGo sh allNames validExp names devs k = some (out, k') →
    ∀ d ∈ out, d.reviewer_names = [] ∨
      d.reviewer_names.length ≤ min d.reviewer_number (allNames.length - 1) + 1 := by
  intro names
  induction names with
  | nil =>
    intro devs k out k' hnd hnn hfresh hbound h
    unfold allocateGo at h
    cases h
    exact hbound
  | cons nm rest ih =>
    intro devs k out k' hnd hnn hfresh hbound h
    unfold allocateGo at h
    cases h1 : allocateOne sh allNames validExp devs nm k with
    | none => rw [h1] at h; cases h
    | some p =>
      rw [h1] at h
      obtain ⟨devs1, k1⟩ := p
      cases h2 : lookupDev devs nm with
      | none =>
        have heq := allocateOne_of_lookup_none h2 h1
        subst heq
        refine ih hnd (List.nodup_cons.mp hnn).2 ?_ hbound h
        exact fun d hd hdr => hfresh d hd (List.mem_cons.mpr (Or.inr hdr))
      | some d =>
        obtain ⟨c, rfl, hcnd, hclen, -, -⟩ := allocateOne_characterize h2 h1
        have hmapn := applyChosen_map_name devs nm c
        refine ih (by rw [hmapn]; exact hnd) (List.nodup_cons.mp hnn).2 ?_ ?_ h
        · intro d' hd' hdr
          unfold applyChosen at hd'
          obtain ⟨r, hr, rfl⟩ := List.mem_map.mp hd'
          rw [applyOne_name] at hdr
          by_cases hrn : r.name = nm
          · exact absurd (hrn ▸ hdr) (List.nodup_cons.mp hnn).1
          · rw [applyOne_rv_of_ne hrn]
            exact hfresh r hr (List.mem_cons.mpr (Or.inr hdr))
        · intro d' hd'
          unfold applyChosen at hd'
          obtain ⟨r, hr, rfl⟩ := List.mem_map.mp hd'
          by_cases hrn : r.name = nm
          · right
            have hrd : d = r := by
              have := lookup_self_of_nodup hnd hr
              rw [hrn, h2] at this
              exact (Option.some.injEq _ _).mp this
            have hfr : r.reviewer_names = [] :=
              hfresh r hr (hrn ▸ List.mem_cons_self nm rest)
            rw [applyOne_rv_of_eq hrn, applyOne_reviewer_number, hfr]
            have hsub : sunion ([] : List String) ((devs.filter (fun rr => rr.name ∈ c)).map (fun rr => rr.name)) ⊆ c := by
              intro y hy
              rcases mem_sunion.mp hy with h0 | h0
              · cases h0
              · exact (mem_addedNames.mp h0).1
            have hlen : (sunion ([] : List String) ((devs.filter (fun rr => rr.name ∈ c)).map (fun rr => rr.name))).length ≤ c.length :=
              (List.subperm_of_subset (nodup_sunion List.nodup_nil) hsub).length_le
            calc _ ≤ c.length := hlen
              _ ≤ min d.reviewer_number (allNames.length - 1) + 1 := hclen
              _ = min r.reviewer_number (allNames.length - 1) + 1 := by rw [hrd]
          · rw [applyOne_rv_of_ne hrn]
            have := hbound r hr
            rw [applyOne_reviewer_number]
            exact this

theorem allocateGo_senior {sh : ShuffleOracle} (hsh : Admissible sh)
    {allNames validExp : List String} :
    ∀ {names : List String} {devs : List Developer} {k : Nat}
      {out : List Developer} {k' : Nat},
    validExp ⊆ devs.map (fun d => d.name) →
    (∀ d ∈ devs, d.name ∉ names →
      (∃ e ∈ validExp, e ≠ d.name) → ∃ e ∈ d.reviewer_names, e ∈ validExp ∧ e ≠ d.name) →
    allocateGo sh allNames validExp names devs k = some (out, k') →
    ∀ d ∈ out, (∃ e ∈ validExp, e ≠ d.name) →
      ∃ e ∈ d.reviewer_names, e ∈ validExp ∧ e ≠ d.name := by
  intro names
  induction names with
  | nil =>
    intro devs k out k' hsub hP h
    unfold allocateGo at h
    cases h
    exact fun d hd => hP d hd (by simp)
  | cons nm rest ih =>
    intro devs k out k' hsub hP h
    unfold allocateGo at h
    cases h1 : allocateOne sh allNames validExp devs nm k with
    | none => rw [h1] at h; cases h
    | some p =>
      rw [h1] at h
      obtain ⟨devs1, k1⟩ := p
      cases h2 : lookupDev devs nm with
      | none =>
        have heq := allocateOne_of_lookup_none h2 h1
        subst heq
        refine ih hsub ?_ h
        intro d hd hdr hex
        refine hP d hd ?_ hex
        intro hmem
        rcases List.mem_cons.mp hmem with h0 | h0
        · exact lookup_none_no_record h2 d hd h0
        · exact hdr h0
      | some d =>
        obtain ⟨c, rfl, -, -, -, hcexp⟩ := allocateOne_characterize h2 h1
        have hmapn := applyChosen_map_name devs nm c
        refine ih (by rw [hmapn]; exact hsub) ?_ h
        intro d' hd' hdr hex
        unfold applyChosen at hd'
        obtain ⟨r, hr, rfl⟩ := List.mem_map.mp hd'
        rw [applyOne_name] at hdr hex ⊢
        by_cases hrn : r.name = nm
        · obtain ⟨e, hec, heve, hene⟩ := hcexp hsh (by rw [hrn] at hex; exact hex)
          refine ⟨e, ?_, heve, by rw [hrn]; exact hene⟩
          rw [applyOne_rv_of_eq hrn, mem_sunion]
          right
          exact mem_addedNames.mpr ⟨hec, hsub heve⟩
        · rw [applyOne_rv_of_ne hrn]
          exact hP r hr (fun hmem => by
            rcases List.mem_cons.mp hmem with h0 | h0
            · exact hrn h0
            · exact hdr h0) hex

/-- C2 (amended): after the individual allocator allocate_reviewers of
allocate_reviewers.py returns normally on a roster whose records start
with empty reviewer_names and review_for, reviewer_names and review_for
are mutual inverses across the whole roster: r.name is in d.reviewer_names
exactly when d.name is in r.review_for.  (The team allocator
assign_team_reviewers never writes review_for, so the unamended claim
fails there; see the counterexample.) -/
theorem C2_mutual_inverse_amended (sh : ShuffleOracle) (expNames : List String)
    (devs out : List Developer) (hsh : Admissible sh)
    (hempty : ∀ d ∈ devs, d.reviewer_names = [] ∧ d.review_for = [])
    (hout : allocate_reviewers sh expNames devs = some out) :
    ∀ d ∈ out, ∀ r ∈ out, (r.name ∈ d.reviewer_names ↔ d.name ∈ r.review_for) := by
  unfold allocate_reviewers at hout
  obtain ⟨⟨out0, k'⟩, hgo, hfst⟩ := Option.map_eq_some'.mp hout
  cases hfst
  have hinit : MutualInv devs := by
    intro d hd r hr
    rw [(hempty d hd).1, (hempty r hr).2]
    simp
  exact allocateGo_mutualInv hinit hgo

/-- C4 (amended): under the normal, non-retry allocator allocate_reviewers
of allocate_reviewers.py, started on distinct-named records with empty
reviewer_names, every developer ends with at most
min(reviewer_number, roster size - 1) + 1 reviewers: the clamped quota
plus at most one extra from the mandatory experienced-reviewer phase.
The unamended bound max(reviewer_number, 1) fails; see the
counterexample. -/
theorem C4_quota_amended (sh : ShuffleOracle) (expNames : List String)
    (devs out : List Developer) (hsh : Admissible sh)
    (hnodup : (devs.map (fun d => d.name)).Nodup)
    (hempty : ∀ d ∈ devs, d.reviewer_names = [])
    (hout : allocate_reviewers sh expNames devs = some out) :
    ∀ d ∈ out, d.reviewer_names.length ≤ min d.reviewer_number (devs.length - 1) + 1 := by
  unfold allocate_reviewers at hout
  obtain ⟨⟨out0, k'⟩, hgo, hfst⟩ := Option.map_eq_some'.mp hout
  cases hfst
  have hded : (devs.map (fun d => d.name)).dedup = devs.map (fun d => d.name) :=
    List.dedup_eq_self.mpr hnodup
  have hlen : ((devs.map (fun d => d.name)).dedup).length = devs.length := by
    rw [hded, List.length_map]
  have hres := allocateGo_quota hnodup hnodup
    (fun d hd _ => hempty d hd)
    (fun d hd => Or.inl (hempty d hd)) hgo
  intro d hd
  rcases hres d hd with h0 | h0
  · rw [h0]
    simp
  · rw [hlen] at h0
    exact h0

/-- C3 (amended): after allocate_reviewers of allocate_reviewers.py
returns normally, every developer for whom some configured experienced
name on the roster differs from the developer's own name has at least one
reviewer drawn from the configured experienced names present on the
roster.  The unamended claim, which only asks the intersection to be
non-empty, fails when a developer is itself the only experienced name;
see the counterexample. -/
theorem C3_mandatory_senior_amended (sh : ShuffleOracle) (expNames : List String)
    (devs out : List Developer) (hsh : Admissible sh)
    (hout : allocate_reviewers sh expNames devs = some out) :
    ∀ d ∈ out,
      (∃ e, e ∈ expNames ∧ e ∈ devs.map (fun x => x.name) ∧ e ≠ d.name) →
      ∃ e ∈ d.reviewer_names, e ∈ expNames ∧ e ∈ devs.map (fun x => x.name) ∧ e ≠ d.name := by
  unfold allocate_reviewers at hout
  obtain ⟨⟨out0, k'⟩, hgo, hfst⟩ := Option.map_eq_some'.mp hout
  cases hfst
  have hmemv : ∀ e, e ∈ expNames.filter (fun nm => nm ∈ (devs.map (fun d => d.name)).dedup) ↔
      (e ∈ expNames ∧ e ∈ devs.map (fun d => d.name)) := by
    intro e
    rw [List.mem_filter]
    simp [List.mem_dedup]
  have hsub : expNames.filter (fun nm => nm ∈ (devs.map (fun d => d.name)).dedup) ⊆
      devs.map (fun d => d.name) := fun e he => ((hmemv e).mp he).2
  have hP : ∀ d ∈ devs, d.name ∉ devs.map (fun d => d.name) →
      (∃ e ∈ expNames.filter (fun nm => nm ∈ (devs.map (fun d => d.name)).dedup), e ≠ d.name) →
      ∃ e ∈ d.reviewer_names,
        e ∈ expNames.filter (fun nm => nm ∈ (devs.map (fun d => d.name)).dedup) ∧ e ≠ d.name := by
    intro d hd hmem
    exact absurd (List.mem_map.mpr ⟨d, hd, rfl⟩) hmem
  have hres := allocateGo_senior hsh hsub hP hgo
  intro d hd hex
  obtain ⟨e, he1, he2, he3⟩ := hex
  obtain ⟨e', he'rv, he'v, he'ne⟩ := hres d hd ⟨e, (hmemv e).mpr ⟨he1, he2⟩, he3⟩
  have := (hmemv e').mp he'v
  exact ⟨e', he'rv, this.1, this.2, he'ne⟩

/-- C2 counterexample: assign_team_reviewers of rotate_reviewers.py never
updates review_for, so on a teams roster whose first team lists the second
team as a member, T2 is assigned as reviewer of T1 while T1 never appears
in T2's review_for: the mutual-inverse biconditional of the claim is false
for the team allocator. -/
theorem C2_counterexample_teams :
    (assign_team_reviewers shId ["Z"] teamsPair).map mutualInverseOK = some false := by
  rfl

/-- C2 witness: the amended mutual-inverse theorem evaluated on the
concrete two-developer roster devsSoleExp with the identity oracle. -/
theorem C2_witness :
    recSoleB.name ∈ recSoleA.reviewer_names ↔ recSoleA.name ∈ recSoleB.review_for :=
  C2_mutual_inverse_amended shId ["A"] devsSoleExp outSoleExp
    (fun _ _ => List.Perm.refl _) (by decide) (by rfl)
    recSoleA (by decide) recSoleB (by decide)

/-- C3 counterexample: on the roster devsSoleExp the configured
experienced set intersected with the roster is the non-empty set of A
alone, yet developer A (who cannot review itself) ends with no
experienced reviewer: the unamended mandatory-senior claim is false. -/
theorem C3_counterexample_sole_experienced :
    ("A" ∈ devsSoleExp.map (fun d => d.name)) ∧
      (allocate_reviewers shId ["A"] devsSoleExp).map (mandatorySeniorOK ["A"]) =
        some false := by
  constructor
  · decide
  · rfl

/-- C3 witness: the amended mandatory-senior theorem evaluated on
devsSoleExp for developer B, for whom the experienced name A differs from
B's own name. -/
theorem C3_witness :
    ∃ e ∈ recSoleB.reviewer_names,
      e ∈ ["A"] ∧ e ∈ devsSoleExp.map (fun x => x.name) ∧ e ≠ recSoleB.name :=
  C3_mandatory_senior_amended shId ["A"] devsSoleExp outSoleExp
    (fun _ _ => List.Perm.refl _) (by rfl)
    recSoleB (by decide) ⟨"A", by decide, by decide, by decide⟩

/-- C4 counterexample: on devsQuota, developer A's preferable phase fills
the quota of two with non-experienced names and the mandatory experienced
phase still adds D, giving three reviewers; the claimed bound
max(reviewer_number, 1) is false on the code. -/
theorem C4_counterexample_quota_exceeded :
    (allocate_reviewers shId ["D"] devsQuota).map quotaOK = some false := by
  rfl

/-- C4 witness: the amended quota bound evaluated on devsQuota at
developer A, whose three reviewers meet the bound
min(2, 3) + 1 = 3. -/
theorem C4_witness :
    recQuotaA.reviewer_names.length ≤
      min recQuotaA.reviewer_number (devsQuota.length - 1) + 1 :=
  C4_quota_amended shId ["D"] devsQuota outQuota
    (fun _ _ => List.Perm.refl _) (by decide) (by decide) (by rfl)
    recQuotaA (by decide)


theorem perm_pair_cases {α : Type} {l : List α} {a b : α}
    (h : l.Perm [a, b]) : l = [a, b] ∨ l = [b, a] := by
  have hlen : l.length = 2 := by simpa using h.length_eq
  obtain ⟨x, y, rfl⟩ := List.length_eq_two.mp hlen
  have hx : x = a ∨ x = b := by
    have hx0 : x ∈ [a, b] := h.subset (by simp)
    simpa using hx0
  rcases hx with rfl | rfl
  · have h2 : [y].Perm [b] := h.cons_inv
    rw [List.perm_singleton.mp h2]
    simp
  · have h2 : [x, y].Perm [x, a] := h.trans (List.Perm.swap x a [])
    have h3 : [y].Perm [a] := h2.cons_inv
    rw [List.perm_singleton.mp h3]
    simp

theorem perm_triple_cases {α : Type} {l : List α} {a b c : α}
    (h : l.Perm [a, b, c]) :
    l = [a, b, c] ∨ l = [a, c, b] ∨ l = [b, a, c] ∨ l = [b, c, a] ∨
      l = [c, a, b] ∨ l = [c, b, a] := by
  have s1 : ([a, b, c] : List α).Perm (b :: [a, c]) := List.Perm.swap b a [c]
  have s2 : ([a, b, c] : List α).Perm (c :: [a, b]) :=
    (List.Perm.cons a (List.Perm.swap c b [])).trans (List.Perm.swap c a [b])
  have hlen : l.length = 3 := by simpa using h.length_eq
  obtain ⟨x, y, z, rfl⟩ := List.length_eq_three.mp hlen
  have hx : x = a ∨ x = b ∨ x = c := by
    have hx0 : x ∈ [a, b, c] := h.subset (by simp)
    simpa using hx0
  rcases hx with rfl | rfl | rfl
  · have h2 : [y, z].Perm [b, c] := h.cons_inv
    rcases perm_pair_cases h2 with h3 | h3 <;> rw [h3] <;> simp
  · have h2 : [y, z].Perm [a, c] := (h.trans s1).cons_inv
    rcases perm_pair_cases h2 with h3 | h3 <;> rw [h3] <;> simp
  · have h2 : [y, z].Perm [a, b] := (h.trans s2).cons_inv
    rcases perm_pair_cases h2 with h3 | h3 <;> rw [h3] <;> simp


/-- C5: selector load fairness.  With candidates A, B, C of pairwise
distinct review loads 0, 1 and 2 on the roster and a requested count of
two, shuffle_and_get_the_most_available_names returns exactly A and B for
every outcome of the internal random shuffle: the stable sort by load puts
A before B before C whatever order the shuffle produced. -/
theorem C5_selector_load_fairness (shuffled : List String)
    (h : shuffled.Perm ["A", "B", "C"]) :
    shuffle_and_get_the_most_available_names shuffled 2 devsLoads = some ["A", "B"] := by
  rcases perm_triple_cases h with h1 | h1 | h1 | h1 | h1 | h1 <;> rw [h1] <;> rfl

/-- C5 witness: the load-fairness theorem evaluated at one concrete
shuffle outcome. -/
theorem C5_witness :
    shuffle_and_get_the_most_available_names ["C", "B", "A"] 2 devsLoads = some ["A", "B"] :=
  C5_selector_load_fairness ["C", "B", "A"] (by decide)

/-- C6: selector saturation and zero count.  A requested count of zero
returns the empty list for every pool and roster; and whenever the
candidate pool is no larger than the requested count, every candidate is
in the returned list (no candidate is lost to shuffling or the final
truncation). -/
theorem C6_selector_zero_and_saturation :
    (∀ (shuffled : List String) (devs : List Developer),
      shuffle_and_get_the_most_available_names shuffled 0 devs = some []) ∧
    (∀ (pool shuffled : List String) (n : Nat) (devs : List Developer)
        (picked : List String),
      shuffled.Perm pool →
      shuffle_and_get_the_most_available_names shuffled n devs = some picked →
      pool.length ≤ n → ∀ x ∈ pool, x ∈ picked) := by
  constructor
  · intro shuffled devs
    rfl
  · intro pool shuffled n devs picked hperm hsel hlen x hx
    have hx' : x ∈ shuffled := hperm.mem_iff.mpr hx
    have hl : shuffled.length ≤ n := by rw [hperm.length_eq]; exact hlen
    exact selector_full hl hsel x hx'

/-- C6 witness: both parts of the saturation theorem evaluated on a
concrete pool of two names with count three. -/
theorem C6_witness :
    shuffle_and_get_the_most_available_names ["B", "A"] 0 devsSoleExp = some [] ∧
      ("A" : String) ∈ (["B", "A"] : List String) :=
  ⟨C6_selector_zero_and_saturation.1 ["B", "A"] devsSoleExp,
    C6_selector_zero_and_saturation.2 ["A", "B"] ["B", "A"] 3 devsSoleExp ["B", "A"]
      (by decide) (by rfl) (by decide) "A" (by decide)⟩

/-- C10: selector totality requires roster membership.  On the concrete
roster devsGhostPref, whose first developer prefers the off-roster name Z
with a positive reviewer target, allocate_reviewers raises (the selector
sort key raises StopIteration looking Z up), modelled as none; and the
selector returns normally whenever every candidate name has a roster
record. -/
theorem C10_selector_totality :
    allocate_reviewers shId [] devsGhostPref = none ∧
    (∀ (shuffled : List String) (n : Nat) (devs : List Developer),
      (∀ x ∈ shuffled, ∃ d ∈ devs, d.name = x) →
      (shuffle_and_get_the_most_available_names shuffled n devs).isSome) := by
  constructor
  · rfl
  · intro shuffled n devs h
    refine selector_isSome ?_
    intro x hx
    obtain ⟨d, hd, hdn⟩ := h x hx
    unfold lookupDev
    exact List.find?_isSome.mpr ⟨d, hd, by simp [hdn]⟩

/-- C10 witness: the totality part evaluated on a concrete pool contained
in the roster. -/
theorem C10_witness :
    (shuffle_and_get_the_most_available_names ["A"] 1 devsSoleExp).isSome :=
  C10_selector_totality.2 ["A"] 1 devsSoleExp (by decide)

/-- C1: the no-self-review claim is right and the code is wrong.  The
retry allocate_reviewers of scripts/rotate_devs_reviewers.py sorts its
deep copy by preferable-list size before allocating, then writes
reviewer_names and review_for back into the input list by position, so on
devsBug the record of developer A receives B's reviewer set, which is
exactly the set containing A: the run returns normally with A (and B)
listed as their own reviewers. -/
theorem C1_self_review_retry_bug :
    (allocate_reviewers_retry (runAlgId ["A"]) ["A"] devsBug 10).map noSelfReviewOK =
      some false ∧
    (allocate_reviewers_retry (runAlgId ["A"]) ["A"] devsBug 10).map
      (fun out => out.map (fun d => (d.name, d.reviewer_names))) =
      some [("A", ["A"]), ("B", ["B"]), ("C", ["A"])] :=
  ⟨rfl, rfl⟩

/-- C8 counterexample: on devsNoExp with an empty experienced set, every
attempt of run_reviewer_allocation_algorithm completes without raising
(the second conjunct), yet the retry allocate_reviewers raises the final
RuntimeError (none): with every attempt scoring zero no best attempt is
ever recorded, so the claim that it raises only when every attempt raised
is false. -/
theorem C8_counterexample_all_attempts_zero :
    allocate_reviewers_retry (runAlgId []) [] devsNoExp 10 = none ∧
    (runAlgId [] 0 devsNoExp).isSome :=
  ⟨rfl, rfl⟩


theorem sunion_of_disjoint {l xs : List String}
    (hd : ∀ x ∈ xs, x ∉ l) (hx : xs.Nodup) : sunion l xs = l ++ xs := by
  induction xs generalizing l with
  | nil => simp [sunion]
  | cons a as ih =>
    show sunion (sinsert a l) as = _
    have ha : a ∉ l := hd a (by simp)
    have hins : sinsert a l = l ++ [a] := by unfold sinsert; rw [if_neg ha]
    rw [hins, ih, List.append_assoc]
    · rfl
    · intro x hxs
      simp only [List.mem_append, List.mem_singleton]
      rintro (h0 | rfl)
      · exact hd x (by simp [hxs]) h0
      · exact (List.nodup_cons.mp hx).1 hxs
    · exact (List.nodup_cons.mp hx).2

theorem sunion_nil {xs : List String} (hx : xs.Nodup) : sunion [] xs = xs := by
  have := @sunion_of_disjoint [] xs (fun x _ h => by cases h) hx
  simpa using this

theorem select_balanced_of_le {shuffled candidates : List String} {count : Nat}
    {ac : String → Nat} (h : candidates.length ≤ count) :
    select_balanced shuffled candidates count ac = candidates := by
  unfold select_balanced
  rw [if_pos h]

theorem select_balanced_subset {shuffled candidates : List String} (count : Nat)
    (ac : String → Nat) (hperm : shuffled.Perm candidates) :
    ∀ x ∈ select_balanced shuffled candidates count ac, x ∈ candidates := by
  unfold select_balanced
  split
  · exact fun x hx => hx
  · intro x hx
    exact hperm.mem_iff.mp (mem_isort.mp (List.take_subset _ _ hx))

theorem select_balanced_length {shuffled candidates : List String} (count : Nat)
    (ac : String → Nat) (hperm : shuffled.Perm candidates) :
    (select_balanced shuffled candidates count ac).length = min count candidates.length := by
  unfold select_balanced
  split
  · rename_i h
    exact (Nat.min_eq_right h).symm
  · rename_i h
    rw [List.length_take, length_isort, hperm.length_eq]

theorem select_balanced_nodup {shuffled candidates : List String} (count : Nat)
    (ac : String → Nat) (hperm : shuffled.Perm candidates)
    (hnd : candidates.Nodup) :
    (select_balanced shuffled candidates count ac).Nodup := by
  unfold select_balanced
  split
  · exact hnd
  · have h1 : shuffled.Nodup := hperm.symm.nodup hnd
    have h2 : (isort (fun a b => ac a ≤ ac b) shuffled).Nodup :=
      (perm_isort _ _).symm.nodup h1
    exact (List.take_sublist _ _).nodup h2

theorem assignOneTeam_spec (sh : ShuffleOracle) (expList : List String)
    (t : Developer) (ac : String → Nat) (k : Nat)
    (hsh : Admissible sh) (hexp : expList.Nodup) (hne : expList ≠ [])
    (hm : t.preferable_reviewer_names.Nodup) :
    TeamSpec expList t (assignOneTeam sh expList t ac k).1 := by
  by_cases hm0 : t.preferable_reviewer_names.length = 0
  · have hmnil : t.preferable_reviewer_names = [] := List.length_eq_zero.mp hm0
    have hres : (assignOneTeam sh expList t ac k).1 =
        { t with reviewer_indexes := [], reviewer_names := sunion [] (select_balanced (sh k expList) expList t.reviewer_number ac) } := by
      unfold assignOneTeam
      rw [if_pos hm0]
    have hsel := select_balanced_subset t.reviewer_number ac (hsh k expList)
    have hselnd := select_balanced_nodup t.reviewer_number ac (hsh k expList) hexp
    have hsellen := select_balanced_length t.reviewer_number ac (hsh k expList)
    refine ⟨?_, ?_, ?_⟩
    · intro _
      constructor
      · intro x hx
        rw [hres] at hx
        simp only at hx
        rcases mem_sunion.mp hx with h0 | h0
        · cases h0
        · exact hsel x h0
      · intro hlenle
        rw [hres]
        simp only
        rw [sunion_nil hselnd, hsellen]
        omega
    · intro hne0
      exact absurd hmnil hne0
    · intro hge
      rw [hmnil] at hge
      simp only [List.length_nil, Nat.le_zero] at hge
      constructor
      · rw [hres]
        simp only
        rw [sunion_nil hselnd, hsellen, hge]
        simp
      · intro x hx
        rw [hres] at hx
        simp only at hx
        exfalso
        have hz : select_balanced (sh k expList) expList t.reviewer_number ac = [] :=
          List.length_eq_zero.mp (by rw [hsellen, hge]; simp)
        rw [hz] at hx
        rcases mem_sunion.mp hx with h0 | h0 <;> cases h0
  · by_cases hlt : t.preferable_reviewer_names.length < t.reviewer_number
    · have hrem : 0 < t.reviewer_number - t.preferable_reviewer_names.length := by omega
      have hrv1 : sunion ([] : List String) t.preferable_reviewer_names = t.preferable_reviewer_names :=
        sunion_nil hm
      by_cases he : expList.filter (fun x => x ∉ t.preferable_reviewer_names) = []
      · have hres : (assignOneTeam sh expList t ac k).1 =
            { t with reviewer_indexes := [], reviewer_names := sunion [] t.preferable_reviewer_names } := by
          unfold assignOneTeam
          rw [if_neg hm0, if_pos hlt, if_neg (fun hc => hc.1 he)]
        refine ⟨?_, ?_, ?_⟩
        · intro h0; exact absurd (by rw [h0]; rfl) hm0
        · intro _ _
          refine ⟨?_, ?_, ?_⟩
          · intro x hx
            rw [hres]
            simp only
            rw [hrv1]
            exact hx
          · intro x hx
            rw [hres] at hx
            simp only at hx
            rw [hrv1] at hx
            exact Or.inl hx
          · rw [hres]
            simp only
            rw [hrv1, he]
            simp
        · intro hge0; omega
      · have hres : (assignOneTeam sh expList t ac k).1 =
            { t with reviewer_indexes := [], reviewer_names := sunion (sunion [] t.preferable_reviewer_names) (select_balanced (sh k (expList.filter (fun x => x ∉ t.preferable_reviewer_names))) (expList.filter (fun x => x ∉ t.preferable_reviewer_names)) (t.reviewer_number - t.preferable_reviewer_names.length) (bump ac t.preferable_reviewer_names)) } := by
          unfold assignOneTeam
          rw [if_neg hm0, if_pos hlt, if_pos ⟨he, hrem⟩]
        have hsub : ∀ x ∈ select_balanced (sh k (expList.filter (fun x => x ∉ t.preferable_reviewer_names))) (expList.filter (fun x => x ∉ t.preferable_reviewer_names)) (t.reviewer_number - t.preferable_reviewer_names.length) (bump ac t.preferable_reviewer_names), x ∈ expList.filter (fun x => x ∉ t.preferable_reviewer_names) :=
          select_balanced_subset _ _ (hsh k _)
        have helignd : (expList.filter (fun x => x ∉ t.preferable_reviewer_names)).Nodup :=
          List.Nodup.filter _ hexp
        have hselnd : (select_balanced (sh k (expList.filter (fun x => x ∉ t.preferable_reviewer_names))) (expList.filter (fun x => x ∉ t.preferable_reviewer_names)) (t.reviewer_number - t.preferable_reviewer_names.length) (bump ac t.preferable_reviewer_names)).Nodup :=
          select_balanced_nodup _ _ (hsh k _) helignd
        have hdisj : ∀ x ∈ select_balanced (sh k (expList.filter (fun x => x ∉ t.preferable_reviewer_names))) (expList.filter (fun x => x ∉ t.preferable_reviewer_names)) (t.reviewer_number - t.preferable_reviewer_names.length) (bump ac t.preferable_reviewer_names), x ∉ t.preferable_reviewer_names := by
          intro x hx
          have h1 := List.mem_filter.mp (hsub x hx)
          simpa using h1.2
        have hrveq : sunion (sunion [] t.preferable_reviewer_names) (select_balanced (sh k (expList.filter (fun x => x ∉ t.preferable_reviewer_names))) (expList.filter (fun x => x ∉ t.preferable_reviewer_names)) (t.reviewer_number - t.preferable_reviewer_names.length) (bump ac t.preferable_reviewer_names)) = t.preferable_reviewer_names ++ select_balanced (sh k (expList.filter (fun x => x ∉ t.preferable_reviewer_names))) (expList.filter (fun x => x ∉ t.preferable_reviewer_names)) (t.reviewer_number - t.preferable_reviewer_names.length) (bump ac t.preferable_reviewer_names) := by
          rw [hrv1]
          exact sunion_of_disjoint hdisj hselnd
        refine ⟨?_, ?_, ?_⟩
        · intro h0; exact absurd (by rw [h0]; rfl) hm0
        · intro _ _
          refine ⟨?_, ?_, ?_⟩
          · intro x hx
            rw [hres]
            simp only
            rw [hrveq]
            exact List.mem_append.mpr (Or.inl hx)
          · intro x hx
            rw [hres] at hx
            simp only at hx
            rw [hrveq] at hx
            rcases List.mem_append.mp hx with h0 | h0
            · exact Or.inl h0
            · right
              have h2 := List.mem_filter.mp (hsub x h0)
              exact ⟨h2.1, by simpa using h2.2⟩
          · rw [hres]
            simp only
            rw [hrveq, List.length_append]
            have hlensel := select_balanced_length (t.reviewer_number - t.preferable_reviewer_names.length) (bump ac t.preferable_reviewer_names) (hsh k (expList.filter (fun x => x ∉ t.preferable_reviewer_names)))
            rw [hlensel]
        · intro hge0; omega
    · -- full-membership branch
      have hge : t.reviewer_number ≤ t.preferable_reviewer_names.length := by omega
      have hres : (assignOneTeam sh expList t ac k).1 =
          { t with reviewer_indexes := [], reviewer_names := sunion [] (select_balanced (sh k t.preferable_reviewer_names) t.preferable_reviewer_names t.reviewer_number ac) } := by
        unfold assignOneTeam
        rw [if_neg hm0, if_neg (by omega)]
      set selected := select_balanced (sh k t.preferable_reviewer_names)
        t.preferable_reviewer_names t.reviewer_number ac with hselected
      have hsub : ∀ x ∈ selected, x ∈ t.preferable_reviewer_names :=
        select_balanced_subset _ _ (hsh k _)
      have hselnd : selected.Nodup := select_balanced_nodup _ _ (hsh k _) hm
      refine ⟨?_, ?_, ?_⟩
      · intro h0; exact absurd (by rw [h0]; rfl) hm0
      · intro _ h0; omega
      · intro _
        constructor
        · rw [hres]
          simp only
          rw [sunion_nil hselnd, hselected]
          rw [select_balanced_length t.reviewer_number ac (hsh k t.preferable_reviewer_names)]
          omega
        · intro x hx
          rw [hres] at hx
          simp only at hx
          rw [sunion_nil hselnd] at hx
          exact hsub x hx

theorem assignTeamsGo_spec (sh : ShuffleOracle) (expList : List String)
    (hsh : Admissible sh) (hexp : expList.Nodup) (hne : expList ≠ []) :
    ∀ (teams : List Developer) (ac : String → Nat) (k : Nat),
    (∀ t ∈ teams, t.preferable_reviewer_names.Nodup) →
    List.Forall₂ (TeamSpec expList) teams (assignTeamsGo sh expList teams ac k) := by
  intro teams
  induction teams with
  | nil => intro ac k _; exact List.Forall₂.nil
  | cons t ts ih =>
    intro ac k hmem
    exact List.Forall₂.cons
      (assignOneTeam_spec sh expList t ac k hsh hexp hne (hmem t (by simp)))
      (ih _ _ (fun t' ht' => hmem t' (by simp [ht'])))

/-- C7: team composition rule of assign_team_reviewers
(rotate_reviewers.py).  Positionally for every team of the call: a team
with no members draws reviewers entirely from the experienced pool,
exactly its quota of them when the pool is large enough; a team with
fewer members than its quota keeps all its members as reviewers and fills
the difference from the experienced pool minus its members; a team with
at least its quota of members ends with exactly its quota of reviewers,
all drawn from its membership. -/
theorem C7_team_composition (sh : ShuffleOracle) (expList : List String)
    (teams out : List Developer)
    (hsh : Admissible sh) (hexp : expList.Nodup)
    (hmem : ∀ t ∈ teams, t.preferable_reviewer_names.Nodup)
    (hout : assign_team_reviewers sh expList teams = some out) :
    List.Forall₂ (TeamSpec expList) teams out := by
  unfold assign_team_reviewers at hout
  split at hout
  · cases hout
  · rename_i hemp
    cases hout
    have hne : expList ≠ [] := by
      intro h0
      rw [h0] at hemp
      exact hemp rfl
    exact assignTeamsGo_spec sh expList hsh hexp hne teams _ _ hmem

/-- C7 witness: the team-composition theorem evaluated on a concrete
three-team call covering the three composition cases. -/
theorem C7_witness :
    List.Forall₂ (TeamSpec ["E1", "E2", "E3"]) teamsTriple outTeamsTriple :=
  C7_team_composition shId ["E1", "E2", "E3"] teamsTriple outTeamsTriple
    (fun _ _ => List.Perm.refl _) (by decide) (by decide) (by rfl)

theorem retryGo_isSome_of_some (alg : Nat → Option (List Developer))
    (perfect : Nat) (score : List Developer → Nat)
    (wb : List Developer → List Developer) :
    ∀ (fuel i : Nat) (b : List Developer) (bs : Nat),
    (retryGo alg perfect score wb fuel i (some b) bs).isSome := by
  intro fuel
  induction fuel with
  | zero => intro i b bs; rfl
  | succ n ih =>
    intro i b bs
    unfold retryGo
    cases halg : alg i with
    | none => exact ih (i + 1) b bs
    | some res =>
      dsimp only
      split
      · rfl
      · split
        · exact ih (i + 1) res _
        · exact ih (i + 1) b bs

theorem retryGo_some_shape (alg : Nat → Option (List Developer))
    (perfect : Nat) (score : List Developer → Nat)
    (wb : List Developer → List Developer) :
    ∀ (fuel i : Nat) (best : Option (List Developer)) (bs : Nat)
      (out : List Developer),
    (∀ b, best = some b → ∃ b0, b = b0 ∧ True) →
    retryGo alg perfect score wb fuel i best bs = some out →
    ∃ b, out = wb b := by
  intro fuel
  induction fuel with
  | zero =>
    intro i best bs out _ h
    cases best with
    | none => cases h
    | some b =>
      refine ⟨b, ?_⟩
      have : some (wb b) = some out := h
      exact ((Option.some.injEq _ _).mp this).symm
  | succ n ih =>
    intro i best bs out hb h
    unfold retryGo at h
    cases halg : alg i with
    | none =>
      rw [halg] at h
      exact ih (i + 1) best bs out hb h
    | some res =>
      rw [halg] at h
      dsimp only at h
      split at h
      · exact ⟨res, ((Option.some.injEq _ _).mp h).symm⟩
      · split at h
        · exact ih (i + 1) (some res) _ out (fun b hbb => ⟨b, rfl, trivial⟩) h
        · exact ih (i + 1) best bs out hb h

theorem retryGo_none_iff (alg : Nat → Option (List Developer))
    (perfect : Nat) (score : List Developer → Nat)
    (wb : List Developer → List Developer) :
    ∀ (fuel i : Nat),
    (retryGo alg perfect score wb fuel i none 0 = none ↔
      ∀ j, j < fuel → ∀ res, alg (i + j) = some res →
        (score res = 0 ∧ perfect ≠ 0)) := by
  intro fuel
  induction fuel with
  | zero =>
    intro i
    constructor
    · intro _ j hj
      omega
    · intro _
      rfl
  | succ n ih =>
    intro i
    unfold retryGo
    cases halg : alg i with
    | none =>
      constructor
      · intro h j hj res hres
        cases j with
        | zero => rw [Nat.add_zero] at hres; rw [halg] at hres; cases hres
        | succ j0 =>
          have := (ih (i + 1)).mp h j0 (by omega) res
          rw [Nat.add_assoc, Nat.add_comm 1 j0] at this
          exact this (by rw [← Nat.add_assoc] at hres ⊢; simpa using hres)
      · intro h
        refine (ih (i + 1)).mpr ?_
        intro j hj res hres
        have := h (j + 1) (by omega) res
        rw [show i + (j + 1) = i + 1 + j by omega] at this
        exact this hres
    | some res0 =>
      dsimp only
      constructor
      · intro h j hj res hres
        split at h
        · cases h
        · rename_i hsne
          split at h
          · rename_i hlt
            have := retryGo_isSome_of_some alg perfect score wb n (i + 1) res0 (score res0)
            rw [h] at this
            cases this
          · rename_i hnlt
            have hs0 : score res0 = 0 := by omega
            cases j with
            | zero =>
              rw [Nat.add_zero, halg] at hres
              cases hres
              exact ⟨hs0, by intro hp; rw [hp] at hsne; exact hsne (by omega)⟩
            | succ j0 =>
              have := (ih (i + 1)).mp h j0 (by omega) res
              rw [show i + 1 + j0 = i + (j0 + 1) by omega] at this
              exact this hres
      · intro h
        have h0 := h 0 (by omega) res0 (by rw [Nat.add_zero]; exact halg)
        split
        · rename_i hseq
          exact absurd hseq (by have := h0.1; have := h0.2; omega)
        · split
          · rename_i hlt
            have := h0.1
            omega
          · refine (ih (i + 1)).mpr ?_
            intro j hj res hres
            refine h (j + 1) (by omega) res ?_
            rw [show i + (j + 1) = i + 1 + j by omega]
            exact hres

/-- C8 (amended): the retry allocate_reviewers of
scripts/rotate_devs_reviewers.py raises (returns none) exactly when every
attempt either raised or completed with zero non-experienced developers
assigned while some non-experienced developer exists; and whenever it
returns normally, the returned roster is the input list with
reviewer_names and review_for copied in positionally from some attempt's
(sorted) copy.  The unamended claim, that it raises only when every
attempt raised, is refuted by the counterexample in which all attempts
complete scoring zero. -/
theorem C8_retry_amended (alg : Nat → List Developer → Option (List Developer))
    (expNames : List String) (devs : List Developer) (max_retries : Nat) :
    (allocate_reviewers_retry alg expNames devs max_retries = none ↔
      ∀ i, i < max_retries → ∀ res, alg i devs = some res →
        (retryScore expNames devs res = 0 ∧ nonExpOf expNames devs ≠ [])) ∧
    (∀ out, allocate_reviewers_retry alg expNames devs max_retries = some out →
      ∃ b, out = devs.zipWith (fun (d c : Developer) => { d with reviewer_names := c.reviewer_names, review_for := c.review_for }) b) := by
  constructor
  · unfold allocate_reviewers_retry
    dsimp only
    rw [retryGo_none_iff]
    constructor
    · intro h i hi res hres
      have h1 : retryScore expNames devs res = 0 ∧ (nonExpOf expNames devs).length ≠ 0 :=
        h i hi res (by simpa using hres)
      refine ⟨h1.1, ?_⟩
      intro hnil
      exact h1.2 (by rw [hnil]; rfl)
    · intro h j hj res hres
      have h1 := h j hj res (by simpa using hres)
      show retryScore expNames devs res = 0 ∧ (nonExpOf expNames devs).length ≠ 0
      refine ⟨h1.1, ?_⟩
      intro hlen
      exact h1.2 (List.length_eq_zero.mp hlen)
  · intro out hout
    unfold allocate_reviewers_retry at hout
    dsimp only at hout
    exact retryGo_some_shape _ _ _ _ max_retries 0 none 0 out (fun b hb => by cases hb) hout

/-- C8 witness: the amended raise-condition applied to the
all-attempts-raise instantiation. -/
theorem C8_witness :
    allocate_reviewers_retry (fun _ _ => none) [] devsNoExp 10 = none :=
  (C8_retry_amended (fun _ _ => none) [] devsNoExp 10).1.mpr
    (fun _ _ _ h => by cases h)


theorem erasePref_name (r : RotDev) : (erasePref r).name = r.name := rfl

theorem erasePref_reviewer_number (r : RotDev) :
    (erasePref r).reviewer_number = r.reviewer_number := rfl

theorem erasePref_order (r : RotDev) : (erasePref r).order = r.order := rfl

theorem erasePref_reviewer_names (r : RotDev) :
    (erasePref r).reviewer_names = r.reviewer_names := rfl

theorem erasePref_reviewer_indexes (r : RotDev) :
    (erasePref r).reviewer_indexes = r.reviewer_indexes := rfl

theorem erasePref_review_for (r : RotDev) :
    (erasePref r).review_for = r.review_for := rfl

theorem insSorted_map {α : Type} (le : α → α → Bool) (g : α → α)
    (hle : ∀ a b, le (g a) (g b) = le a b) (x : α) (l : List α) :
    insSorted le (g x) (l.map g) = (insSorted le x l).map g := by
  induction l with
  | nil => rfl
  | cons y ys ih =>
    unfold insSorted
    simp only [List.map_cons]
    rw [hle]
    split
    · rfl
    · simp only [List.map_cons]
      rw [ih]

theorem isort_map {α : Type} (le : α → α → Bool) (g : α → α)
    (hle : ∀ a b, le (g a) (g b) = le a b) (l : List α) :
    isort le (l.map g) = (isort le l).map g := by
  induction l with
  | nil => rfl
  | cons x xs ih =>
    unfold isort
    simp only [List.map_cons]
    rw [ih, insSorted_map le g hle]

theorem findRot_map (ring : List RotDev) (nm : String) :
    (ring.map erasePref).find? (fun r => r.name == nm) =
      (ring.find? (fun r => r.name == nm)).map erasePref := by
  rw [List.find?_map]
  rfl

theorem findReviewer_map (expNames : List String) (maxAssign : Nat)
    (ring : List RotDev) (dnm : String) (drv : List String) (senior : Bool) :
    ∀ (fuel start skip : Nat),
    findReviewer expNames maxAssign (ring.map erasePref) dnm drv senior fuel start skip =
      findReviewer expNames maxAssign ring dnm drv senior fuel start skip := by
  intro fuel
  induction fuel with
  | zero => intro start skip; rfl
  | succ n ih =>
    intro start skip
    unfold findReviewer
    simp only [List.length_map, List.get?_map]
    cases hget : ring.get? ((start + skip) % ring.length) with
    | none => rfl
    | some cand =>
      simp only [Option.map_some', erasePref_name, erasePref_review_for]
      rw [ih]

theorem updRot_map (ring : List RotDev) (nm : String) (f : RotDev → RotDev)
    (hf : ∀ r, f (erasePref r) = erasePref (f r))
    (hname : ∀ r, (f r).name = r.name) :
    updRot (ring.map erasePref) nm f = (updRot ring nm f).map erasePref := by
  unfold updRot
  rw [List.map_map, List.map_map]
  refine List.map_congr_left ?_
  intro r _
  simp only [Function.comp_apply, erasePref_name]
  split
  · exact hf r
  · rfl

theorem rotApply_map (ring : List RotDev) (dnm candName : String)
    (safeIdx : Nat) :
    rotApply (ring.map erasePref) dnm candName safeIdx =
      (rotApply ring dnm candName safeIdx).map erasePref := by
  unfold rotApply
  rw [updRot_map ring dnm (fun r => { r with reviewer_names := sinsert candName r.reviewer_names, reviewer_indexes := sinsert safeIdx r.reviewer_indexes }) (fun r => rfl) (fun r => rfl)]
  rw [updRot_map _ candName (fun r => { r with review_for := sinsert dnm r.review_for }) (fun r => rfl) (fun r => rfl)]

theorem rotFirstPass_map (expNames : List String) (maxAssign : Nat)
    (prev : String → List Nat) :
    ∀ (names : List String) (ring : List RotDev),
    rotFirstPass expNames maxAssign prev names (ring.map erasePref) =
      (rotFirstPass expNames maxAssign prev names ring).map (List.map erasePref) := by
  intro names
  induction names with
  | nil => intro ring; rfl
  | cons nm rest ih =>
    intro ring
    unfold rotFirstPass
    rw [findRot_map]
    cases hfind : ring.find? (fun r => r.name == nm) with
    | none =>
      simp only [Option.map_none']
      exact ih ring
    | some d =>
      simp only [Option.map_some', erasePref_reviewer_names, List.length_map]
      rw [findReviewer_map]
      cases hfr : findReviewer expNames maxAssign ring nm d.reviewer_names true
          ring.length (maxIdx (prev nm)) 1 with
      | none => rfl
      | some trip =>
        obtain ⟨safe, raw, skip⟩ := trip
        simp only [List.get?_map]
        cases hget : ring.get? safe with
        | none => rfl
        | some cand =>
          simp only [Option.map_some', erasePref_name]
          rw [rotApply_map]
          exact ih _

theorem rotFill_map (expNames : List String) (maxAssign : Nat) (nm : String) :
    ∀ (fuel : Nat) (ring : List RotDev),
    rotFill expNames maxAssign nm fuel (ring.map erasePref) =
      (rotFill expNames maxAssign nm fuel ring).map (List.map erasePref) := by
  intro fuel
  induction fuel with
  | zero => intro ring; rfl
  | succ n ih =>
    intro ring
    unfold rotFill
    rw [findRot_map]
    cases hfind : ring.find? (fun r => r.name == nm) with
    | none => rfl
    | some d =>
      simp only [Option.map_some', erasePref_reviewer_names,
        erasePref_reviewer_number, erasePref_reviewer_indexes, List.length_map]
      split
      · rw [findReviewer_map]
        cases hfr : findReviewer expNames maxAssign ring nm d.reviewer_names false
            ring.length (maxIdx d.reviewer_indexes) 1 with
        | none => rfl
        | some trip =>
          obtain ⟨safe, raw, skip⟩ := trip
          simp only [List.get?_map]
          cases hget : ring.get? safe with
          | none => rfl
          | some cand =>
            simp only [Option.map_some', erasePref_name]
            rw [rotApply_map]
            exact ih _
      · rfl

theorem rotSecondPass_map (expNames : List String) (maxAssign : Nat) :
    ∀ (jobs : List (String × Nat)) (ring : List RotDev),
    rotSecondPass expNames maxAssign jobs (ring.map erasePref) =
      (rotSecondPass expNames maxAssign jobs ring).map (List.map erasePref) := by
  intro jobs
  induction jobs with
  | nil => intro ring; rfl
  | cons job rest ih =>
    intro ring
    obtain ⟨nm, fuel⟩ := job
    unfold rotSecondPass
    rw [rotFill_map]
    cases hfill : rotFill expNames maxAssign nm fuel ring with
    | none => rfl
    | some ring1 =>
      simp only [Option.map_some']
      exact ih ring1

theorem rotate_map (expNames : List String) (prev : String → List Nat)
    (devs : List RotDev) :
    rotate expNames prev (devs.map erasePref) =
      (rotate expNames prev devs).map (List.map erasePref) := by
  have hcomp1 : ((fun (d : RotDev) => d.reviewer_number) ∘ erasePref) =
      (fun (d : RotDev) => d.reviewer_number) := funext (fun d => rfl)
  have hcomp2 : ((fun (d : RotDev) => d.name) ∘ erasePref) =
      (fun (d : RotDev) => d.name) := funext (fun d => rfl)
  have hcomp3 : ((fun (d : RotDev) => (d.name, d.reviewer_number)) ∘ erasePref) =
      (fun (d : RotDev) => (d.name, d.reviewer_number)) := funext (fun d => rfl)
  have hsort : isort (fun a b => decide (a.order ≤ b.order)) (devs.map erasePref) =
      (isort (fun a b => decide (a.order ≤ b.order)) devs).map erasePref :=
    isort_map (fun a b => decide (a.order ≤ b.order)) erasePref (fun a b => rfl) devs
  unfold rotate
  dsimp only
  rw [hsort, List.length_map, List.map_map, List.map_map, List.map_map,
    hcomp1, hcomp2, hcomp3]
  split
  · rfl
  · set rg := isort (fun (a b : RotDev) => decide (a.order ≤ b.order)) devs with hrg
    set ma := ((devs.map (fun d => d.reviewer_number)).sum + rg.length - 1) / rg.length with hma
    rw [rotFirstPass_map]
    cases hfp : rotFirstPass expNames ma prev (rg.map (fun d => d.name)) rg with
    | none => rfl
    | some ring1 =>
      simp only [Option.map_some']
      rw [rotSecondPass_map]

/-- C9: the deterministic rotator (modelled from the spec, section 4.4;
its implementation is not among the source files) is a pure function of
the roster's name, reviewer_number and order fields, the previous
indexes and the experienced set: two rosters that agree on everything but
the preferable (team-membership) field, the one field the rotator never
reads, produce identical reviewer assignments, identical recorded
reviewer_indexes and identical review loads.  No random source enters the
computation at all. -/
theorem C9_rotator_deterministic (expNames : List String)
    (prev : String → List Nat) (ds₁ ds₂ : List RotDev)
    (h : ds₁.map erasePref = ds₂.map erasePref) :
    (rotate expNames prev ds₁).map (List.map erasePref) =
      (rotate expNames prev ds₂).map (List.map erasePref) := by
  rw [← rotate_map, ← rotate_map, h]

/-- C9 witness: the extensionality theorem evaluated on two concrete
rosters that differ only in the preferable field. -/
theorem C9_witness :
    (rotate ["A", "B"] (fun _ => []) rotRosterA).map (List.map erasePref) =
      (rotate ["A", "B"] (fun _ => []) rotRosterB).map (List.map erasePref) :=
  C9_rotator_deterministic ["A", "B"] (fun _ => []) rotRosterA rotRosterB (by rfl)


end Alloc
